import Mathlib

/-!
Verification development for the incremental FST builder of the rucene
repository (`core/util/fst/fst_builder.rs`).

The builder is shallowly embedded: `FstBuilder::add`, `FstBuilder::freeze_tail`,
`FstBuilder::compile_node`, `FstBuilder::finish`, the pending-node operations of
`UnCompiledNode`, and the dedup table `NodeHash` are translated into executable
Lean functions over an explicit builder state.  The output algebra is
instantiated at numeric outputs (identity `0`, `add` = `+`, `subtract` =
truncated subtraction, `common` = `min`, `merge` = `max`), matching the
monoid-like contract of `OutputFactory` in the specification.

External collaborators that are not part of the source core (the compiled
byte store `FST::add_node` / arc reading, `FST::set_empty_output`, the
bit-packed table array) are modelled from the specification; each such
definition carries a doc comment starting with `Modelled from the spec:`.

Conventions:
- Rust raw pointers into the frontier Vec are replaced by frontier indices
  (`NodeRef.unCompiled (some i)`); the null pointer written by the deferred
  branch of `freeze_tail` becomes `NodeRef.unCompiled none`.
- Rust panics (the `assert!` macros, null dereferences) are a `Fatal` value in
  an `Except Fatal` result; `Fatal.ioErr` stands for the recoverable `Err`
  channel of the Rust `Result` type, which the modelled pure store never
  produces except on malformed reads.  Fallible results are threaded by
  explicit pattern matching, and loops are first-order structural recursions,
  so that every definition reduces by plain unfolding.
- 64-bit wrapping arithmetic (`wrapping_mul`, `wrapping_add`) is `Nat`
  arithmetic reduced modulo `2 ^ 64`; `DefaultHasher` applied to an output
  value is a parameter `hashV : Nat → Nat` of the configuration,
  instantiated below with a fixed deterministic function (as the fixed-key
  `DefaultHasher` of the source is).
-/

namespace Rucene

/-- List read with index (`Vec` indexing); `none` when out of bounds. -/
def getNth? {α : Type} : List α → Nat → Option α
  | [], _ => none
  | a :: _, 0 => some a
  | _ :: l, i + 1 => getNth? l i

/-- List read with index and a default value. -/
def nthD {α : Type} (l : List α) (i : Nat) (d : α) : α :=
  match getNth? l i with
  | some a => a
  | none => d

/-- List write at an index (`Vec` slot assignment); identity out of bounds. -/
def setNth {α : Type} : List α → Nat → α → List α
  | [], _, _ => []
  | _ :: l, 0, b => b :: l
  | a :: l, i + 1, b => a :: setNth l i b

/-- First `n` elements of a list (`&arcs[0..num_arcs]`). -/
def takeN {α : Type} : Nat → List α → List α
  | 0, _ => []
  | _, [] => []
  | n + 1, a :: l => a :: takeN n l

/-- A list without its first `n` elements. -/
def dropN {α : Type} : Nat → List α → List α
  | 0, l => l
  | _, [] => []
  | n + 1, _ :: l => dropN n l

/-- Width of the wrapping hash arithmetic (`u64`, the numeral is `2 ^ 64`). -/
def U64 : Nat := 18446744073709551616

/-- Reinterpret an `i64` value as `u64` (two-complement). -/
def i64AsU64 (n : Int) : Nat := ((n % (18446744073709551616 : Int)).toNat)

/-- Reinterpret the low 32 bits of an integer as an unsigned value
(`label as u32 as u64` in `node_hash_compiled`; the numeral is `2 ^ 32`). -/
def u32AsU64 (n : Int) : Nat := ((n % (4294967296 : Int)).toNat)

/-- Arithmetic shift right by 32 of an `i64` value (floor division). -/
def sar32 (n : Int) : Int := Int.fdiv n 4294967296

/-- Bitwise exclusive or of the low `fuel` bits, written as a structural
recursion on the bit count so it reduces by plain unfolding. -/
def xorBits : Nat → Nat → Nat → Nat
  | 0, _, _ => 0
  | fuel + 1, a, b =>
      (if a % 2 ≠ b % 2 then 1 else 0) + 2 * xorBits fuel (a / 2) (b / 2)

/-- Bitwise and of the low `fuel` bits (structural recursion). -/
def landBits : Nat → Nat → Nat → Nat
  | 0, _, _ => 0
  | fuel + 1, a, b =>
      (if a % 2 = 1 ∧ b % 2 = 1 then 1 else 0) +
        2 * landBits fuel (a / 2) (b / 2)

/-- 64-bit exclusive or. -/
def xor64 (a b : Nat) : Nat := xorBits 64 a b

/-- 64-bit bitwise and (the `& mask` of the probe loops). -/
def land64 (a b : Nat) : Nat := landBits 64 a b

/-- The `(n ^ (n >> 32)) as u64` mixing term used on target addresses by both
hash functions of `NodeHash`. -/
def targetMix (n : Int) : Nat := xor64 (i64AsU64 n) (i64AsU64 (sar32 n))

/-- One multiplicative hash step: `prime.wrapping_mul(h)` with `prime = 31`. -/
def hmul (h : Nat) : Nat := (31 * h) % U64

/-- Wrapping 64-bit addition. -/
def hadd (a b : Nat) : Nat := (a + b) % U64

/-- OutputFactory.empty for numeric outputs. -/
def oEmpty : Nat := 0

/-- OutputFactory.add for numeric outputs: concatenate prefix and suffix. -/
def oAdd (a b : Nat) : Nat := a + b

/-- OutputFactory.subtract for numeric outputs (callers only subtract a
common prefix, so truncated subtraction agrees with the exact inverse). -/
def oSub (a b : Nat) : Nat := a - b

/-- OutputFactory.common for numeric outputs: the greatest shared prefix. -/
def oCommon (a b : Nat) : Nat := min a b

/-- OutputFactory.merge for numeric outputs: duplicate-key policy, numeric
maximum (the instantiation named by the specification). -/
def oMerge (a b : Nat) : Nat := max a b

/-- Fatal outcomes of a build.  The `assert…` constructors are the always-on
`assert!` macros of the source; `nullDeref` is a dereference of the null
pending pointer; `ioErr` stands for the recoverable error channel. -/
inductive Fatal where
  | assertOrder
  | assertLabel
  | assertArcOrder
  | assertLastArc
  | assertHash
  | assertNodeSentinel
  | nullDeref
  | uncompiledTarget
  | probeExhausted
  | ioErr
  deriving DecidableEq, Repr

/-- `Node<F>`: an arc target is either a compiled address or a reference to a
pending node; the pointer of the source becomes a frontier index, the null
pointer written by the deferred branch of `freeze_tail` becomes `none`. -/
inductive NodeRef where
  | compiled (addr : Int)
  | unCompiled (slot : Option Nat)
  deriving DecidableEq, Repr

/-- `BuilderArc<F>` with numeric outputs. -/
structure BuilderArc where
  label : Int
  target : NodeRef
  isFinal : Bool
  output : Nat
  nextFinalOutput : Nat
  deriving DecidableEq, Repr

instance : Inhabited BuilderArc :=
  ⟨{ label := 0, target := .unCompiled none, isFinal := false,
     output := 0, nextFinalOutput := 0 }⟩

/-- `UnCompiledNode<F>`: a pending node.  `arcs` is the full backing `Vec`
(`clear` and `delete_last` in the source only reset `num_arcs` and never
truncate the `Vec`, so entries beyond `numArcs` are stale but observable). -/
structure UnCompiledNode where
  numArcs : Nat
  arcs : List BuilderArc
  output : Nat
  isFinal : Bool
  inputCount : Int
  depth : Int
  deriving DecidableEq, Repr

namespace UnCompiledNode

/-- `UnCompiledNode::new`: fresh pending node at a given depth. -/
def new (depth : Int) : UnCompiledNode :=
  { numArcs := 0, arcs := [], output := oEmpty, isFinal := false,
    inputCount := 0, depth := depth }

instance : Inhabited UnCompiledNode := ⟨new 0⟩

/-- `UnCompiledNode::clear`: resets everything except `depth`; the backing
arc `Vec` is kept (only `num_arcs` is zeroed). -/
def clear (n : UnCompiledNode) : UnCompiledNode :=
  { n with numArcs := 0, isFinal := false, output := oEmpty, inputCount := 0 }

/-- The live arcs `arcs[0..num_arcs]` of a pending node. -/
def liveArcs (n : UnCompiledNode) : List BuilderArc := takeN n.numArcs n.arcs

/-- `UnCompiledNode::get_last_output` (asserts a live last arc with the
matching label). -/
def get_last_output (n : UnCompiledNode) (labelToMatch : Int) :
    Except Fatal Nat :=
  if n.numArcs = 0 then .error .assertLastArc
  else
    match getNth? n.arcs (n.numArcs - 1) with
    | none => .error .assertLastArc
    | some a => if a.label = labelToMatch then .ok a.output
                else .error .assertLastArc

/-- `UnCompiledNode::set_last_output` (same assertions). -/
def set_last_output (n : UnCompiledNode) (labelToMatch : Int)
    (newOutput : Nat) : Except Fatal UnCompiledNode :=
  if n.numArcs = 0 then .error .assertLastArc
  else
    match getNth? n.arcs (n.numArcs - 1) with
    | none => .error .assertLastArc
    | some a =>
        if a.label = labelToMatch then
          .ok { n with arcs := setNth n.arcs (n.numArcs - 1)
                        { a with output := newOutput } }
        else .error .assertLastArc

/-- `UnCompiledNode::add_arc`: appends a live arc, overwriting a stale slot of
the backing `Vec` when one exists; asserts a positive label in strictly
increasing label order. -/
def add_arc (n : UnCompiledNode) (label : Int) (target : NodeRef) :
    Except Fatal UnCompiledNode :=
  if label ≤ 0 then .error .assertLabel
  else if n.numArcs ≠ 0 ∧
      ¬ ((nthD n.arcs (n.numArcs - 1) default).label < label) then
    .error .assertArcOrder
  else
    let newArc : BuilderArc :=
      { label := label, target := target, isFinal := false,
        output := oEmpty, nextFinalOutput := oEmpty }
    let arcs :=
      if n.numArcs = n.arcs.length then n.arcs ++ [newArc]
      else setNth n.arcs n.numArcs newArc
    .ok { n with arcs := arcs, numArcs := n.numArcs + 1 }

/-- `UnCompiledNode::replace_last`: rewrites target, next-final-output and
finality of the last live arc (asserts its presence and label). -/
def replace_last (n : UnCompiledNode) (labelToMatch : Int) (target : NodeRef)
    (nextFinalOutput : Nat) (isFinal : Bool) : Except Fatal UnCompiledNode :=
  if n.numArcs = 0 then .error .assertLastArc
  else
    match getNth? n.arcs (n.numArcs - 1) with
    | none => .error .assertLastArc
    | some a =>
        if a.label = labelToMatch then
          .ok { n with arcs := setNth n.arcs (n.numArcs - 1)
                        { a with target := target,
                                 nextFinalOutput := nextFinalOutput,
                                 isFinal := isFinal } }
        else .error .assertLastArc

/-- `UnCompiledNode::delete_last`: drops the last live arc (the backing `Vec`
keeps the stale entry; the unused `_target` argument of the source is
omitted). -/
def delete_last (n : UnCompiledNode) (label : Int) :
    Except Fatal UnCompiledNode :=
  if n.numArcs = 0 then .error .assertLastArc
  else
    match getNth? n.arcs (n.numArcs - 1) with
    | none => .error .assertLastArc
    | some a =>
        if a.label = label then .ok { n with numArcs := n.numArcs - 1 }
        else .error .assertLastArc

/-- The arc rewrite of `prepend_output` applied to the live arcs. -/
def mapPrependOut (outputPrefix : Nat) : List BuilderArc → List BuilderArc
  | [] => []
  | a :: l => { a with output := oAdd outputPrefix a.output } ::
      mapPrependOut outputPrefix l

/-- `UnCompiledNode::prepend_output`: `add`-prepends an output prefix onto
every live arc, and onto the node output when final. -/
def prepend_output (n : UnCompiledNode) (outputPrefix : Nat) :
    UnCompiledNode :=
  { n with
    arcs := mapPrependOut outputPrefix (takeN n.numArcs n.arcs) ++
      dropN n.numArcs n.arcs,
    output := if n.isFinal then oAdd outputPrefix n.output else n.output }

end UnCompiledNode

/-- An arc of a compiled (frozen, immutable) node as stored in the compiled
store.  Per the specification, structural equality of compiled nodes is
identical ordered arc lists over these five fields. -/
structure CompiledArc where
  label : Int
  target : Int
  isFinal : Bool
  output : Nat
  nextFinalOutput : Nat
  deriving DecidableEq, Repr

/-- A compiled node is its ordered arc list. -/
abbrev CompiledNode : Type := List CompiledArc

/-- Modelled from the spec: the append-only compiled store (external
collaborator `BytesStore`/`FST` serialization).  Nodes are kept whole; the
address of the n-th frozen node is `n + 1`, so that address `0` stays
reserved/unused (the empty-slot sentinel of the dedup table) and negative
sentinel addresses stay out of range. -/
abbrev Store : Type := List CompiledNode

/-- Modelled from the spec: reading a compiled node back from the store
(external arc-reading API `read_first_real_arc_with_layout` /
`read_next_real_arc`).  Addresses below `1` (the reserved sentinel `0` and
the final/non-final end-node sentinels) hold no serialized arcs. -/
def readCompiled (store : Store) (addr : Int) : Option CompiledNode :=
  if addr < 1 then none else getNth? store (addr - 1).toNat

/-- Modelled from the spec: the per-arc output as surfaced by the external
arc reader, which materializes an output only when it is present (non-empty)
in the serialized arc — consistently with the hash equation asserted by
`NodeHash::add` (`node_hash_compiled` must agree with
`node_hash_uncompiled`, which skips empty outputs). -/
def readOutput (o : Nat) : Option Nat := if o = oEmpty then none else some o

/-- Build counters held by the builder (`node_count`, `arc_count`),
incremented as pending nodes are frozen into the store. -/
structure BuildCounts where
  nodeCount : Nat
  arcCount : Nat
  deriving DecidableEq, Repr

/-- Serialization of the live arcs of a pending node; every live target must
already be compiled. -/
def encodeArcs : List BuilderArc → Except Fatal (List CompiledArc)
  | [] => .ok []
  | a :: rest =>
      match a.target with
      | .unCompiled _ => .error .uncompiledTarget
      | .compiled t =>
          match encodeArcs rest with
          | .error e => .error e
          | .ok cs =>
              .ok ({ label := a.label, target := t, isFinal := a.isFinal,
                     output := a.output,
                     nextFinalOutput := a.nextFinalOutput } :: cs)

/-- Modelled from the spec: `FST::add_node`, the external "freeze this
pending node into a compiled address" operation.  A pending node with no
live arcs is not written at all: it is represented by the final end-node
sentinel address `-1` (or `0` when non-final), which is why the byte
position only moves when arcs are written.  Otherwise the `num_arcs` live
arcs are serialized in order. -/
def add_node (store : Store) (counts : BuildCounts) (n : UnCompiledNode) :
    Except Fatal (Int × Store × BuildCounts) :=
  if n.numArcs = 0 then
    .ok (if n.isFinal then -1 else 0, store, counts)
  else
    match encodeArcs n.liveArcs with
    | .error e => .error e
    | .ok cArcs =>
        .ok (((store.length + 1 : Nat) : Int), store ++ [cArcs],
             { nodeCount := counts.nodeCount + 1,
               arcCount := counts.arcCount + n.numArcs })

/-- The arc loop of `NodeHash::node_hash_uncompiled`. -/
def nodeHashLoop (hashV : Nat → Nat) : List BuilderArc → Nat → Nat
  | [], h => h
  | arc :: rest, h =>
      let h := hadd (hmul h) (i64AsU64 arc.label)
      let h := match arc.target with
        | .compiled n => if n ≠ 0 then hadd (hmul h) (targetMix n) else h
        | .unCompiled _ => h
      let h := if arc.output ≠ oEmpty then hadd (hmul h) (hashV arc.output)
               else h
      let h := if arc.nextFinalOutput ≠ oEmpty then
                 hadd (hmul h) (hashV arc.nextFinalOutput)
               else h
      nodeHashLoop hashV rest (if arc.isFinal then hadd h 17 else h)

/-- `NodeHash::node_hash_uncompiled`.  Note that the source iterates over the
whole backing arc `Vec` (`for arc in &node.arcs`), not only the `num_arcs`
live arcs, so stale entries beyond `num_arcs` contribute to the hash. -/
def node_hash_uncompiled (hashV : Nat → Nat) (node : UnCompiledNode) : Nat :=
  nodeHashLoop hashV node.arcs 0

/-- The arc loop of `NodeHash::node_hash_compiled` (over arcs re-read from
the store; the reader always carries the target address, and surfaces
outputs only when non-empty). -/
def compiledHashLoop (hashV : Nat → Nat) : List CompiledArc → Nat → Nat
  | [], h => h
  | arc :: rest, h =>
      let h := hadd (hmul h) (u32AsU64 arc.label)
      let h := hadd (hmul h) (targetMix arc.target)
      let h := match readOutput arc.output with
        | some o => hadd (hmul h) (hashV o)
        | none => h
      let h := match readOutput arc.nextFinalOutput with
        | some o => hadd (hmul h) (hashV o)
        | none => h
      compiledHashLoop hashV rest (if arc.isFinal then hadd h 17 else h)

/-- `NodeHash::node_hash_compiled`: recomputes the hash of a frozen node from
its compiled representation (via the modelled arc reader). -/
def node_hash_compiled (hashV : Nat → Nat) (store : Store) (addr : Int) :
    Except Fatal Nat :=
  match readCompiled store addr with
  | none => .error .ioErr
  | some [] => .error .ioErr
  | some (c :: cs) => .ok (compiledHashLoop hashV (c :: cs) 0)

/-- The arc loop of `NodeHash::nodes_equal`: runs over the whole backing arc
`Vec` of the candidate but stops at the compiled node's last arc; when the
reader surfaces no output (empty output) the source returns `false`; the
target is compared only when the candidate's target is compiled. -/
def nodesEqualGo (numArcs : Nat) :
    List BuilderArc → CompiledArc → List CompiledArc → Nat → Bool
  | [], _, _, _ => false
  | arc :: arest, c, cs, idx =>
      if arc.label ≠ c.label ∨ arc.isFinal ≠ c.isFinal then false
      else
        match readOutput c.output with
        | none => false
        | some o =>
            if o ≠ arc.output then false
            else
              match readOutput c.nextFinalOutput with
              | none => false
              | some o2 =>
                  if o2 ≠ arc.nextFinalOutput then false
                  else
                    let targetBad : Bool :=
                      match arc.target with
                      | .compiled n => n ≠ c.target
                      | .unCompiled _ => false
                    if targetBad then false
                    else
                      match cs with
                      | [] => idx = numArcs - 1
                      | c2 :: cs2 => nodesEqualGo numArcs arest c2 cs2 (idx + 1)

/-- `NodeHash::nodes_equal`: structural comparison of a pending node against
a compiled node re-read from the store. -/
def nodes_equal (node : UnCompiledNode) (store : Store) (addr : Int) :
    Except Fatal Bool :=
  match readCompiled store addr with
  | none => .error .ioErr
  | some [] => .error .ioErr
  | some (c0 :: crest) => .ok (nodesEqualGo node.numArcs node.arcs c0 crest 0)

/-- The open-addressed dedup table of `NodeHash`.  Modelled from the spec:
the backing `PagedGrowableWriter` is a dynamically bit-packed array of
addresses with empty-slot sentinel `0`; here it is a plain list of length
`size` (a power of two), with `mask = size - 1`. -/
structure NodeTable where
  size : Nat
  mask : Nat
  entries : List Int
  count : Nat
  deriving DecidableEq, Repr

/-- The fresh table built by `NodeHash::new` (`PagedGrowableWriter::new(16, …)`). -/
def NodeTable.init : NodeTable :=
  { size := 16, mask := 15, entries := List.replicate 16 0, count := 0 }

/-- The quadratic probe of `NodeHash::add_new` (reinsertion during rehash):
probes from the hash recomputed from the compiled representation until an
empty slot is found.  The fuel bounds the probe walk of the unbounded source
loop; it is never exhausted because the table keeps empty slots (occupancy
is at most 2/3). -/
def addNewLoop (address : Int) : Nat → Nat → Nat → NodeTable →
    Except Fatal NodeTable
  | 0, _, _, _ => .error .probeExhausted
  | fuel + 1, pos, c, t =>
      if nthD t.entries pos 0 = 0 then
        .ok { t with entries := setNth t.entries pos address }
      else addNewLoop address fuel (land64 (pos + (c + 1)) t.mask) (c + 1) t

/-- `NodeHash::add_new`. -/
def nodeHashAddNew (hashV : Nat → Nat) (store : Store) (t : NodeTable)
    (address : Int) : Except Fatal NodeTable :=
  match node_hash_compiled hashV store address with
  | .error e => .error e
  | .ok h => addNewLoop address (t.size + 1) (land64 h t.mask) 0 t

/-- The reinsertion walk of `NodeHash::rehash` over the old entries. -/
def rehashLoop (hashV : Nat → Nat) (store : Store) :
    List Int → NodeTable → Except Fatal NodeTable
  | [], t => .ok t
  | address :: rest, t =>
      if address ≠ 0 then
        match nodeHashAddNew hashV store t address with
        | .error e => .error e
        | .ok t2 => rehashLoop hashV store rest t2
      else rehashLoop hashV store rest t

/-- `NodeHash::rehash`: doubles the table and reinserts every stored address,
rehashing it directly from its compiled representation. -/
def nodeHashRehash (hashV : Nat → Nat) (store : Store) (t : NodeTable) :
    Except Fatal NodeTable :=
  rehashLoop hashV store t.entries
    { size := 2 * t.size, mask := 2 * t.size - 1,
      entries := List.replicate (2 * t.size) 0, count := t.count }

/-- The probe loop of `NodeHash::add`: an empty slot freezes the candidate
into the store (asserting that the hash recomputed from the compiled
representation equals the candidate hash `h`, and rehashing at 2/3
occupancy); an occupied slot is returned only when `nodes_equal` reports a
full structural match; otherwise the probe continues quadratically. -/
def probeLoop (hashV : Nat → Nat) (nodeIn : UnCompiledNode) (h : Nat) :
    Nat → Nat → Nat → NodeTable → Store → BuildCounts →
    Except Fatal (Int × NodeTable × Store × BuildCounts)
  | 0, _, _, _, _, _ => .error .probeExhausted
  | fuel + 1, pos, c, t, store, counts =>
      let v := nthD t.entries pos 0
      if v = 0 then
        match add_node store counts nodeIn with
        | .error e => .error e
        | .ok (node, store2, counts2) =>
            match node_hash_compiled hashV store2 node with
            | .error e => .error e
            | .ok hc =>
                if hc ≠ h then .error .assertHash
                else
                  let t2 : NodeTable :=
                    { t with entries := setNth t.entries pos node,
                             count := t.count + 1 }
                  if t2.count > 2 * t2.size / 3 then
                    match nodeHashRehash hashV store2 t2 with
                    | .error e => .error e
                    | .ok t3 => .ok (node, t3, store2, counts2)
                  else .ok (node, t2, store2, counts2)
      else
        match nodes_equal nodeIn store v with
        | .error e => .error e
        | .ok true => .ok (v, t, store, counts)
        | .ok false =>
            probeLoop hashV nodeIn h fuel (land64 (pos + (c + 1)) t.mask)
              (c + 1) t store counts

/-- `NodeHash::add`: hashes the candidate pending node and probes.  The
`labels` vector built by the source is dead code and is omitted. -/
def nodeHashAdd (hashV : Nat → Nat) (t : NodeTable) (store : Store)
    (counts : BuildCounts) (nodeIn : UnCompiledNode) :
    Except Fatal (Int × NodeTable × Store × BuildCounts) :=
  let h := node_hash_uncompiled hashV nodeIn
  probeLoop hashV nodeIn h (t.size + 1) (land64 h t.mask) 0 t store counts

/-- Build-time configuration, fixed at construction (`FstBuilder::build`).
`hashV` is the uninterpreted 64-bit `DefaultHasher` applied to an output
value by `NodeHash::hash_code`.  Packing (`do_pack_fst`) is an external
whole-store transformation out of scope of this core (it is `false` in
`FstBuilder::new`), so it is not part of the model. -/
structure Config where
  minSuffixCount1 : Nat
  minSuffixCount2 : Nat
  doShareSuffix : Bool
  doShareNonSingletonNodes : Bool
  shareMaxTailLength : Nat
  hashV : Nat → Nat

/-- Modelled from the spec: the fixed-key deterministic 64-bit
`DefaultHasher` applied to an output value by `NodeHash::hash_code`.  Its
concrete values never influence the runs proved below: every output
involved is the empty output, which both hash functions skip, so any
function in its place yields the same run. -/
def defaultHasher : Nat → Nat := fun v => v

/-- The configuration installed by `FstBuilder::new` (no pruning, suffix
sharing enabled, non-singleton sharing enabled, unbounded shared tail). -/
def defaultConfig : Config :=
  { minSuffixCount1 := 0, minSuffixCount2 := 0, doShareSuffix := true,
    doShareNonSingletonNodes := true, shareMaxTailLength := 2147483647,
    hashV := defaultHasher }

/-- The mutable state of `FstBuilder` (frontier, previous key, compiled
store, dedup table, empty-key output, recorded start node, counters). -/
structure BuilderState where
  frontier : List UnCompiledNode
  lastInput : List Int
  store : Store
  table : Option NodeTable
  emptyOutput : Option Nat
  startNode : Option Int
  counts : BuildCounts
  deriving DecidableEq, Repr

/-- Replace the frontier of a builder state. -/
def withFrontier (s : BuilderState) (f : List UnCompiledNode) : BuilderState :=
  { s with frontier := f }

/-- Frontier slot read (`self.frontier[i]`). -/
def getSlot (f : List UnCompiledNode) (i : Nat) : UnCompiledNode :=
  nthD f i default

/-- Frontier slot write. -/
def setSlot (f : List UnCompiledNode) (i : Nat) (n : UnCompiledNode) :
    List UnCompiledNode := setNth f i n

/-- Fresh pending nodes for consecutive depths, used when the frontier
grows. -/
def freshSlots : Nat → Int → List UnCompiledNode
  | 0, _ => []
  | count + 1, depth => UnCompiledNode.new depth :: freshSlots count (depth + 1)

/-- The state after `FstBuilder::build` followed by `FstBuilder::init`:
ten fresh frontier slots, and a dedup table iff `do_share_suffix`. -/
def initState (cfg : Config) : BuilderState :=
  { frontier := freshSlots 10 0,
    lastInput := [], store := [],
    table := if cfg.doShareSuffix then some NodeTable.init else none,
    emptyOutput := none, startNode := none,
    counts := { nodeCount := 0, arcCount := 0 } }

/-- `FstBuilder::term_count`: the input count of the root frontier slot. -/
def term_count (s : BuilderState) : Int := (getSlot s.frontier 0).inputCount

/-- `FstBuilder::compile_node`: freezes a pending node, going through the
dedup table when sharing is enabled for its arc count and tail length
(zero-arc nodes always bypass the table), then clears the pending node.
Returns the compiled address, the cleared node, and the updated state; the
frontier is untouched.  The `BIT_TARGET_NEXT` bookkeeping
(`last_frozen_node`, byte positions) is serialization-layout only and has no
observable effect in the model. -/
def compile_node (cfg : Config) (s : BuilderState) (nodeIn : UnCompiledNode)
    (tailLength : Nat) :
    Except Fatal (Int × UnCompiledNode × BuilderState) :=
  let frozen : Except Fatal (Int × Option NodeTable × Store × BuildCounts) :=
    match s.table with
    | some t =>
        if (cfg.doShareNonSingletonNodes ∨ nodeIn.numArcs ≤ 1) ∧
            tailLength ≤ cfg.shareMaxTailLength then
          if nodeIn.numArcs = 0 then
            match add_node s.store s.counts nodeIn with
            | .error e => .error e
            | .ok (node, st, cn) => .ok (node, some t, st, cn)
          else
            match nodeHashAdd cfg.hashV t s.store s.counts nodeIn with
            | .error e => .error e
            | .ok (node, t2, st, cn) => .ok (node, some t2, st, cn)
        else
          match add_node s.store s.counts nodeIn with
          | .error e => .error e
          | .ok (node, st, cn) => .ok (node, some t, st, cn)
    | none =>
        match add_node s.store s.counts nodeIn with
        | .error e => .error e
        | .ok (node, st, cn) => .ok (node, none, st, cn)
  match frozen with
  | .error e => .error e
  | .ok (node, t2, store2, counts2) =>
      if node = -2 then .error .assertNodeSentinel
      else
        .ok (node, nodeIn.clear,
             { s with store := store2, table := t2, counts := counts2 })

/-- Wrapping `u32` decrement (`tail_length as u32 - 1` in release mode). -/
def u32sub1 (t : Nat) : Nat := (t + 4294967295) % 4294967296

/-- The arc loop of `FstBuilder::compile_all_targets` over live arc indices:
compiles every still-pending live arc target (faking finality for dead
ends), rewriting each arc to the compiled address; the pending child is
cleared in its frontier slot.  A null pending pointer (written by the
deferred branch of `freeze_tail`) is a fatal dereference. -/
def catLoop (cfg : Config) (tailLength : Nat) :
    Nat → Nat → UnCompiledNode → BuilderState →
    Except Fatal (UnCompiledNode × BuilderState)
  | 0, _, node, s => .ok (node, s)
  | rem + 1, i, node, s =>
      let arc := nthD node.arcs i default
      match arc.target with
      | .compiled _ => catLoop cfg tailLength rem (i + 1) node s
      | .unCompiled none => .error .nullDeref
      | .unCompiled (some tslot) =>
          let child := getSlot s.frontier tslot
          let arc2 := if child.numArcs = 0 then { arc with isFinal := true }
                      else arc
          let child2 := if child.numArcs = 0 then
                          { child with isFinal := true }
                        else child
          match compile_node cfg s child2 (u32sub1 tailLength) with
          | .error e => .error e
          | .ok (addr, childC, s2) =>
              let s3 := withFrontier s2 (setSlot s2.frontier tslot childC)
              let arc3 := { arc2 with target := .compiled addr }
              catLoop cfg tailLength rem (i + 1)
                { node with arcs := setNth node.arcs i arc3 } s3

/-- `FstBuilder::compile_all_targets`. -/
def compile_all_targets (cfg : Config) (s : BuilderState)
    (node : UnCompiledNode) (tailLength : Nat) :
    Except Fatal (UnCompiledNode × BuilderState) :=
  catLoop cfg tailLength node.numArcs 0 node s

/-- The pruning decision of one `freeze_tail` iteration (source lines
208–237): returns `(do_prune, do_compile)` for the node at depth `idx` given
its own and its parent's input counts and the freeze boundary
`prefix_len_plus1`. -/
def pruneDecision (cfg : Config) (nodeIc parentIc : Int) (idx p1 : Nat) :
    Bool × Bool :=
  if nodeIc < (cfg.minSuffixCount1 : Int) then (true, true)
  else if idx > p1 then
    if parentIc < (cfg.minSuffixCount2 : Int) ∨
        (cfg.minSuffixCount2 = 1 ∧ parentIc = 1 ∧ 1 < idx) then
      (true, true)
    else (false, true)
  else (false, cfg.minSuffixCount2 = 0)

/-- The arc-drop walk of `freeze_tail` (source lines 243–249): clears every
live pending child through its frontier slot; a null pending pointer is a
fatal dereference. -/
def clearPendingLoop (arcs : List BuilderArc) :
    Nat → Nat → List UnCompiledNode → Except Fatal (List UnCompiledNode)
  | 0, _, f => .ok f
  | rem + 1, i, f =>
      match (nthD arcs i default).target with
      | .compiled _ => clearPendingLoop arcs rem (i + 1) f
      | .unCompiled none => .error .nullDeref
      | .unCompiled (some t) =>
          clearPendingLoop arcs rem (i + 1)
            (setSlot f t ((getSlot f t).clear))

/-- One iteration of the `freeze_tail` loop at depth `idx` (with freeze
boundary `p1 = prefix_len_plus1`): takes the node and its parent out of
their frontier slots (replacing them with fresh scratch nodes, as the
`mem::replace` of the source does), decides pruning, drops the node's arcs
when its own count misses `min_suffix_count2` (clearing pending children
through their frontier slots), then prunes, compiles, or defers the node,
and writes node and parent back. -/
def freezeStep (cfg : Config) (s : BuilderState) (idx p1 : Nat) :
    Except Fatal BuilderState :=
  let node := getSlot s.frontier idx
  let parent := getSlot s.frontier (idx - 1)
  let f0 := setSlot (setSlot s.frontier idx (UnCompiledNode.new 0)) (idx - 1)
    (UnCompiledNode.new 0)
  let s := withFrontier s f0
  let pd := pruneDecision cfg node.inputCount parent.inputCount idx p1
  let dropped : Except Fatal (UnCompiledNode × BuilderState) :=
    if node.inputCount < (cfg.minSuffixCount2 : Int) ∨
        (cfg.minSuffixCount2 = 1 ∧ node.inputCount = 1 ∧ 1 < idx) then
      match clearPendingLoop node.arcs node.numArcs 0 s.frontier with
      | .error e => .error e
      | .ok f => .ok ({ node with numArcs := 0 }, withFrontier s f)
    else .ok (node, s)
  match dropped with
  | .error e => .error e
  | .ok (node, s) =>
      if pd.1 then
        match parent.delete_last (nthD s.lastInput (idx - 1) 0) with
        | .error e => .error e
        | .ok parent =>
            .ok (withFrontier s
              (setSlot (setSlot s.frontier idx node.clear) (idx - 1) parent))
      else
        match (if cfg.minSuffixCount2 ≠ 0 then
                 compile_all_targets cfg s node (s.lastInput.length - idx)
               else .ok (node, s)) with
        | .error e => .error e
        | .ok (node, s) =>
            let nextFinalOutput := node.output
            let isFinal := node.isFinal ∨ node.numArcs = 0
            if pd.2 then
              match compile_node cfg s node (1 + s.lastInput.length - idx) with
              | .error e => .error e
              | .ok (n, nodeC, s) =>
                  match parent.replace_last (nthD s.lastInput (idx - 1) 0)
                      (.compiled n) nextFinalOutput isFinal with
                  | .error e => .error e
                  | .ok parent =>
                      .ok (withFrontier s
                        (setSlot (setSlot s.frontier idx nodeC) (idx - 1)
                          parent))
            else
              match parent.replace_last (nthD s.lastInput (idx - 1) 0)
                  (.unCompiled none) nextFinalOutput isFinal with
              | .error e => .error e
              | .ok parent =>
                  .ok (withFrontier s
                    (setSlot (setSlot s.frontier idx (UnCompiledNode.new idx))
                      (idx - 1) parent))

/-- The descending loop of `freeze_tail`: `steps` iterations starting at
depth `idx` and moving shallower. -/
def freezeLoop (cfg : Config) (p1 : Nat) :
    Nat → Nat → BuilderState → Except Fatal BuilderState
  | 0, _, s => .ok s
  | steps + 1, idx, s =>
      match freezeStep cfg s idx p1 with
      | .error e => .error e
      | .ok s2 => freezeLoop cfg p1 steps (idx - 1) s2

/-- `FstBuilder::freeze_tail`: compiles or discards every pending node of the
previous key's orphaned suffix, deepest first, down to
`max(1, prefix_len_plus1)` (the loop
`for i in 0..last_input.length - down_to + 1` with
`idx = last_input.length - i`). -/
def freeze_tail (cfg : Config) (s : BuilderState) (p1 : Nat) :
    Except Fatal BuilderState :=
  let downTo := max 1 p1
  if s.lastInput.length < downTo then .ok s
  else freezeLoop cfg p1 (s.lastInput.length - downTo + 1) s.lastInput.length s

/-- Lexicographic strict order on keys (`IntsRef#compareTo`; modelled from
the spec: total order is lexicographic over the label sequence). -/
def lexLt : List Int → List Int → Bool
  | _, [] => false
  | [], _ :: _ => true
  | a :: xs, b :: ys =>
      if a < b then true else if a = b then lexLt xs ys else false

/-- Modelled from the spec: `FST::set_empty_output` merges the supplied
output into the automaton's designated empty output. -/
def set_empty_output (cur : Option Nat) (v : Nat) : Option Nat :=
  match cur with
  | none => some v
  | some e => some (oMerge e v)

/-- The shared-prefix walk of `FstBuilder::add` (source lines 343–353):
increments `input_count` along the shared path, one slot per iteration
including the slot where the walk stops, and returns the stop position.
The fuel is `stop + 1`, which the walk never exhausts since it stops at
`pos1 = stop` at the latest. -/
def sharedPrefixGo (last input : List Int) (stop : Nat) :
    Nat → Nat → List UnCompiledNode → List UnCompiledNode × Nat
  | 0, pos1, f => (f, pos1)
  | fuel + 1, pos1, f =>
      let n := getSlot f pos1
      let f := setSlot f pos1 { n with inputCount := n.inputCount + 1 }
      if pos1 ≥ stop ∨ nthD last pos1 0 ≠ nthD input pos1 0 then (f, pos1)
      else sharedPrefixGo last input stop fuel (pos1 + 1) f

/-- The frontier-extension loop of `FstBuilder::add` (source lines 361–365):
for each new depth `i`, adds an arc on the parent labelled with the
corresponding symbol, pointing at the pending child slot, and increments the
child's input count. -/
def extendLoop (input : List Int) :
    Nat → Nat → BuilderState → Except Fatal BuilderState
  | 0, _, s => .ok s
  | rem + 1, i, s =>
      match (getSlot s.frontier (i - 1)).add_arc (nthD input (i - 1) 0)
          (.unCompiled (some i)) with
      | .error e => .error e
      | .ok pnode =>
          let f := setSlot s.frontier (i - 1) pnode
          let cnode := getSlot f i
          extendLoop input rem (i + 1)
            (withFrontier s
              (setSlot f i { cnode with inputCount := cnode.inputCount + 1 }))

/-- The output-pushing loop of `FstBuilder::add` (source lines 374–394):
for each shared-path depth, factors the common prefix of the new output and
the arc's recorded output, pushes the excess of the old output onto the
child, and subtracts the common prefix from the running output. -/
def pushLoop (input : List Int) :
    Nat → Nat → BuilderState → Nat → Except Fatal (BuilderState × Nat)
  | 0, _, s, output => .ok (s, output)
  | rem + 1, i, s, output =>
      match (getSlot s.frontier (i - 1)).get_last_output
          (nthD input (i - 1) 0) with
      | .error e => .error e
      | .ok lastOutput =>
          if lastOutput ≠ oEmpty then
            let commonPref := oCommon output lastOutput
            let wordSuffix := oSub lastOutput commonPref
            let s := withFrontier s (setSlot s.frontier i
              ((getSlot s.frontier i).prepend_output wordSuffix))
            let output2 := oSub output commonPref
            match (getSlot s.frontier (i - 1)).set_last_output
                (nthD input (i - 1) 0) commonPref with
            | .error e => .error e
            | .ok p =>
                pushLoop input rem (i + 1)
                  (withFrontier s (setSlot s.frontier (i - 1) p)) output2
          else pushLoop input rem (i + 1) s (oSub output oEmpty)

/-- The tail of `FstBuilder::add` (source lines 367–412): marks the new leaf
final, pushes conflicting outputs forward along the shared prefix, installs
the leftover output (or merges it on a repeated key), and records the key as
the new previous key. -/
def addTail (s : BuilderState) (input : List Int) (p1 : Nat)
    (output : Nat) : Except Fatal BuilderState :=
  let lastIdx := input.length
  let s :=
    if s.lastInput.length ≠ input.length ∨ p1 ≠ input.length + 1 then
      let leaf := getSlot s.frontier lastIdx
      let leaf2 := { leaf with isFinal := true, output := oEmpty }
      withFrontier s (setSlot s.frontier lastIdx leaf2)
    else s
  match pushLoop input (p1 - 1) 1 s output with
  | .error e => .error e
  | .ok (s, output) =>
    if s.lastInput.length = input.length ∧ p1 = input.length + 1 then
      let leaf := getSlot s.frontier lastIdx
      let leaf2 := { leaf with output := oMerge leaf.output output }
      let f := setSlot s.frontier lastIdx leaf2
      .ok { s with frontier := f, lastInput := input }
    else
      match (getSlot s.frontier (p1 - 1)).set_last_output
          (nthD input (p1 - 1) 0) output with
      | .error e => .error e
      | .ok p =>
          let f := setSlot s.frontier (p1 - 1) p
          .ok { s with frontier := f, lastInput := input }

/-- The body of `FstBuilder::add` after the order assertion and the frontier
growth (source lines 330–412): special-cases the empty key, walks the shared
prefix, freezes the orphaned suffix of the previous key, extends the
frontier along the new suffix, then runs `addTail`. -/
def addCore (cfg : Config) (s : BuilderState) (input : List Int)
    (output : Nat) : Except Fatal BuilderState :=
    if input.length = 0 then
      let root := getSlot s.frontier 0
      let root2 := { root with inputCount := root.inputCount + 1,
                               isFinal := true }
      let f := setSlot s.frontier 0 root2
      let eo := set_empty_output s.emptyOutput output
      .ok { s with frontier := f, emptyOutput := eo }
    else
      let stop := min s.lastInput.length input.length
      match sharedPrefixGo s.lastInput input stop (stop + 1) 0 s.frontier with
      | (f, pos1) =>
        let s := withFrontier s f
        let p1 := pos1 + 1
        match freeze_tail cfg s p1 with
        | .error e => .error e
        | .ok s =>
          match extendLoop input (input.length + 1 - p1) p1 s with
          | .error e => .error e
          | .ok s => addTail s input p1 output

/-- `FstBuilder::add`: asserts strictly increasing keys, grows the frontier,
then runs `addCore`. -/
def add (cfg : Config) (s : BuilderState) (input : List Int) (output : Nat) :
    Except Fatal BuilderState :=
  if ¬ (s.lastInput.length = 0 ∨ lexLt s.lastInput input) then
    .error .assertOrder
  else
    let s :=
      if s.frontier.length < input.length + 1 then
        let ext := freshSlots (input.length + 2 - s.frontier.length)
          ((s.frontier.length : Nat) : Int)
        withFrontier s (s.frontier ++ ext)
      else s
    addCore cfg s input output

/-- The compiled automaton handle returned by `FstBuilder::finish`. -/
structure CompiledFST where
  store : Store
  emptyOutput : Option Nat
  startNode : Int
  counts : BuildCounts
  deriving DecidableEq, Repr

/-- `FstBuilder::finish`: final freeze of the whole frontier, the
empty-automaton checks (returning the successful empty result when nothing
is accepted), then root compilation and recording of the start address.
Packing is an external whole-store transformation and is not modelled
(`do_pack_fst` is `false` in `FstBuilder::new`). -/
def finish (cfg : Config) (s : BuilderState) :
    Except Fatal (Option CompiledFST) :=
  match freeze_tail cfg s 0 with
  | .error e => .error e
  | .ok s =>
    let root := getSlot s.frontier 0
    if root.inputCount < (cfg.minSuffixCount1 : Int) ∨
        root.inputCount < (cfg.minSuffixCount2 : Int) ∨ root.numArcs = 0 then
      if s.emptyOutput = none then .ok none
      else if 0 < cfg.minSuffixCount1 ∨ 0 < cfg.minSuffixCount2 then .ok none
      else
        match compile_node cfg s root s.lastInput.length with
        | .error e => .error e
        | .ok (node, rootC, s) =>
            .ok (some { store := s.store, emptyOutput := s.emptyOutput,
                        startNode := node,
                        counts := (withFrontier s
                          (setSlot s.frontier 0 rootC)).counts })
    else
      match (if cfg.minSuffixCount2 ≠ 0 then
               compile_all_targets cfg s root s.lastInput.length
             else .ok (root, s)) with
      | .error e => .error e
      | .ok (root, s) =>
        match compile_node cfg s root s.lastInput.length with
        | .error e => .error e
        | .ok (node, rootC, s) =>
            .ok (some { store := s.store, emptyOutput := s.emptyOutput,
                        startNode := node,
                        counts := (withFrontier s
                          (setSlot s.frontier 0 rootC)).counts })

/-- Runs a sequence of `add` calls. -/
def add_all (cfg : Config) :
    BuilderState → List (List Int × Nat) → Except Fatal BuilderState
  | s, [] => .ok s
  | s, (k, o) :: rest =>
      match add cfg s k o with
      | .error e => .error e
      | .ok s2 => add_all cfg s2 rest

/-- A whole build: `init`, the given `add` calls in order, then `finish`. -/
def buildAndFinish (cfg : Config) (ins : List (List Int × Nat)) :
    Except Fatal (Option CompiledFST) :=
  match add_all cfg (initState cfg) ins with
  | .error e => .error e
  | .ok s => finish cfg s

/-- The hash the specification describes: computed only over the ordered
live arc list (the `num_arcs` arcs) of the pending node.  This is the
spec-side counterpart of `node_hash_uncompiled`, which iterates the whole
backing `Vec`. -/
def specNodeHash (hashV : Nat → Nat) (node : UnCompiledNode) : Nat :=
  node_hash_uncompiled hashV { node with arcs := node.liveArcs }

/-- The pending node at frontier depth 1 at the moment `freeze_tail` compiles
it during the fourth call of `build_crashes_on_sorted_keys`: one live arc
(label `4`, compiled final end-node target) and one stale backing-`Vec`
entry (label `3`) left over from the node's previous life (the slot was
compiled, `clear`ed — which keeps the `Vec` — and reused with fewer arcs). -/
def staleNodeExample : UnCompiledNode :=
  { numArcs := 1,
    arcs := [{ label := 4, target := .compiled (-1), isFinal := true,
               output := 0, nextFinalOutput := 0 },
             { label := 3, target := .compiled (-1), isFinal := true,
               output := 0, nextFinalOutput := 0 }],
    output := 0, isFinal := false, inputCount := 1, depth := 1 }

/-- The compiled automaton produced by building the keys `[1,2,3]` and
`[4,2,3]` (outputs `0`) under the default configuration: store indices 0 and
2 (addresses 1 and 3) hold the same compiled shape. -/
def dupFst : CompiledFST :=
  { store := [[{ label := 3, target := -1, isFinal := true, output := 0, nextFinalOutput := 0 }], [{ label := 2, target := 1, isFinal := false, output := 0, nextFinalOutput := 0 }], [{ label := 3, target := -1, isFinal := true, output := 0, nextFinalOutput := 0 }], [{ label := 2, target := 3, isFinal := false, output := 0, nextFinalOutput := 0 }], [{ label := 1, target := 2, isFinal := false, output := 0, nextFinalOutput := 0 }, { label := 4, target := 4, isFinal := false, output := 0, nextFinalOutput := 0 }]],
    emptyOutput := none,
    startNode := 5,
    counts := { nodeCount := 5, arcCount := 6 } }

/-- A configuration with absolute pruning (`min_suffix_count1 = 5`) and no
suffix sharing, used to exercise `freeze_tail` at boundary `0`. -/
def cfg5 : Config :=
  { minSuffixCount1 := 5, minSuffixCount2 := 0, doShareSuffix := false,
    doShareNonSingletonNodes := true, shareMaxTailLength := 2147483647,
    hashV := defaultHasher }

/-- The builder state after `add([1], 0)` under `cfg5`: both the root and
the depth-1 leaf have `input_count = 1`, below the pruning threshold `5`. -/
def c3state : BuilderState :=
  { frontier := [{ numArcs := 1, arcs := [{ label := 1, target := .unCompiled (some 1), isFinal := false, output := 0, nextFinalOutput := 0 }], output := 0, isFinal := false, inputCount := 1, depth := 0 }, { numArcs := 0, arcs := [], output := 0, isFinal := true, inputCount := 1, depth := 1 }, { numArcs := 0, arcs := [], output := 0, isFinal := false, inputCount := 0, depth := 2 }, { numArcs := 0, arcs := [], output := 0, isFinal := false, inputCount := 0, depth := 3 }, { numArcs := 0, arcs := [], output := 0, isFinal := false, inputCount := 0, depth := 4 }, { numArcs := 0, arcs := [], output := 0, isFinal := false, inputCount := 0, depth := 5 }, { numArcs := 0, arcs := [], output := 0, isFinal := false, inputCount := 0, depth := 6 }, { numArcs := 0, arcs := [], output := 0, isFinal := false, inputCount := 0, depth := 7 }, { numArcs := 0, arcs := [], output := 0, isFinal := false, inputCount := 0, depth := 8 }, { numArcs := 0, arcs := [], output := 0, isFinal := false, inputCount := 0, depth := 9 }], lastInput := [1], store := [], table := none, emptyOutput := none, startNode := none, counts := { nodeCount := 0, arcCount := 0 } }

/-- The state after `freeze_tail(0)` on `c3state`: the depth-1 node was
pruned (cleared, its arc deleted from the root), but the depth-0 root —
although its own `input_count` is also below `min_suffix_count1` — was never
processed and keeps its input count. -/
def c3frozen : BuilderState :=
  { frontier := [{ numArcs := 0, arcs := [{ label := 1, target := .unCompiled (some 1), isFinal := false, output := 0, nextFinalOutput := 0 }], output := 0, isFinal := false, inputCount := 1, depth := 0 }, { numArcs := 0, arcs := [], output := 0, isFinal := false, inputCount := 0, depth := 1 }, { numArcs := 0, arcs := [], output := 0, isFinal := false, inputCount := 0, depth := 2 }, { numArcs := 0, arcs := [], output := 0, isFinal := false, inputCount := 0, depth := 3 }, { numArcs := 0, arcs := [], output := 0, isFinal := false, inputCount := 0, depth := 4 }, { numArcs := 0, arcs := [], output := 0, isFinal := false, inputCount := 0, depth := 5 }, { numArcs := 0, arcs := [], output := 0, isFinal := false, inputCount := 0, depth := 6 }, { numArcs := 0, arcs := [], output := 0, isFinal := false, inputCount := 0, depth := 7 }, { numArcs := 0, arcs := [], output := 0, isFinal := false, inputCount := 0, depth := 8 }, { numArcs := 0, arcs := [], output := 0, isFinal := false, inputCount := 0, depth := 9 }], lastInput := [1], store := [], table := none, emptyOutput := none, startNode := none, counts := { nodeCount := 0, arcCount := 0 } }

/-- A pending node references no pending target at frontier slot 0 (arcs
only ever point at strictly deeper slots). -/
def nodeOk (n : UnCompiledNode) : Prop :=
  ∀ a ∈ n.arcs, a.target ≠ NodeRef.unCompiled (some 0)

/-- The frontier invariant used for the input-count accounting: the frontier
is strictly longer than the previous key (so every freeze depth is a real
slot, and in particular the frontier is non-empty), and no arc of any
frontier node has a pending target at slot 0. -/
def wfState (s : BuilderState) : Prop :=
  s.lastInput.length < s.frontier.length ∧ ∀ n ∈ s.frontier, nodeOk n

end Rucene

namespace Rucene

/-- Writing a slot does not change the length. -/
theorem setNth_length {α : Type} (l : List α) (i : Nat) (b : α) :
    (setNth l i b).length = l.length := by
  induction l generalizing i with
  | nil => rfl
  | cons a l ih =>
      cases i with
      | zero => rfl
      | succ j => simpa [setNth] using ih j

/-- Reading a freshly written slot. -/
theorem getNth?_setNth_self {α : Type} (l : List α) (i : Nat) (b : α)
    (h : i < l.length) : getNth? (setNth l i b) i = some b := by
  induction l generalizing i with
  | nil => simp at h
  | cons a l ih =>
      cases i with
      | zero => rfl
      | succ j =>
          simp only [List.length_cons, Nat.succ_lt_succ_iff] at h
          simpa [setNth, getNth?] using ih j h

/-- Reading another slot after a write. -/
theorem getNth?_setNth_other {α : Type} (l : List α) (i j : Nat) (b : α)
    (h : j ≠ i) : getNth? (setNth l i b) j = getNth? l j := by
  induction l generalizing i j with
  | nil => rfl
  | cons a l ih =>
      cases i with
      | zero =>
          cases j with
          | zero => exact absurd rfl h
          | succ k => rfl
      | succ i2 =>
          cases j with
          | zero => rfl
          | succ k =>
              simpa [setNth, getNth?] using ih i2 k (fun e => h (by omega))

/-- A successful indexed read is a member. -/
theorem getNth?_mem {α : Type} (l : List α) (i : Nat) (a : α)
    (h : getNth? l i = some a) : a ∈ l := by
  induction l generalizing i with
  | nil => simp [getNth?] at h
  | cons b l ih =>
      cases i with
      | zero =>
          simp only [getNth?, Option.some.injEq] at h
          exact h ▸ List.mem_cons_self b l
      | succ j => exact List.mem_cons_of_mem b (ih j h)

/-- Members of a written list are the new value or old members. -/
theorem mem_setNth {α : Type} (l : List α) (i : Nat) (b : α) (a : α)
    (h : a ∈ setNth l i b) : a = b ∨ a ∈ l := by
  induction l generalizing i with
  | nil => simp [setNth] at h
  | cons c l ih =>
      cases i with
      | zero =>
          rcases List.mem_cons.mp h with h1 | h1
          · exact Or.inl h1
          · exact Or.inr (List.mem_cons_of_mem c h1)
      | succ j =>
          rcases List.mem_cons.mp h with h1 | h1
          · exact Or.inr (h1 ▸ List.mem_cons_self c l)
          · rcases ih j h1 with h2 | h2
            · exact Or.inl h2
            · exact Or.inr (List.mem_cons_of_mem c h2)

/-- `setSlot` preserves the frontier length. -/
theorem setSlot_length (f : List UnCompiledNode) (i : Nat)
    (n : UnCompiledNode) : (setSlot f i n).length = f.length :=
  setNth_length f i n

/-- Reading a freshly written frontier slot. -/
theorem getSlot_setSlot_self (f : List UnCompiledNode) (i : Nat)
    (n : UnCompiledNode) (h : i < f.length) : getSlot (setSlot f i n) i = n := by
  simp [getSlot, setSlot, nthD, getNth?_setNth_self f i n h]

/-- Reading another frontier slot after a write. -/
theorem getSlot_setSlot_other (f : List UnCompiledNode) (i j : Nat)
    (n : UnCompiledNode) (h : j ≠ i) :
    getSlot (setSlot f i n) j = getSlot f j := by
  simp [getSlot, setSlot, nthD, getNth?_setNth_other f i j n h]

/-- A read frontier slot is a member or the default node (which has no
arcs). -/
theorem getSlot_cases (f : List UnCompiledNode) (i : Nat) :
    getSlot f i ∈ f ∨ getSlot f i = default := by
  unfold getSlot nthD
  cases h : getNth? f i with
  | none => exact Or.inr rfl
  | some a => exact Or.inl (getNth?_mem f i a h)

/-- The default pending node satisfies `nodeOk`. -/
theorem nodeOk_default : nodeOk (default : UnCompiledNode) := by
  intro a ha
  simp [default, UnCompiledNode.new] at ha

/-- Any read slot of an all-`nodeOk` frontier is `nodeOk`. -/
theorem nodeOk_getSlot (f : List UnCompiledNode)
    (hf : ∀ n ∈ f, nodeOk n) (i : Nat) : nodeOk (getSlot f i) := by
  rcases getSlot_cases f i with h | h
  · exact hf _ h
  · rw [h]; exact nodeOk_default

/-- Writing a `nodeOk` node into an all-`nodeOk` frontier keeps it
all-`nodeOk`. -/
theorem nodeOk_setSlot (f : List UnCompiledNode) (i : Nat)
    (b : UnCompiledNode) (hf : ∀ n ∈ f, nodeOk n) (hb : nodeOk b) :
    ∀ n ∈ setSlot f i b, nodeOk n := by
  intro n hn
  rcases mem_setNth f i b n hn with h | h
  · exact h ▸ hb
  · exact hf n h

/-- The pruning decision of `freeze_tail` holds exactly under the disjunction
of the absolute rule and, strictly below the boundary, the relative rule
with its single-occurrence special case. -/
theorem pruneDecision_fst_iff (cfg : Config) (nIc pIc : Int) (idx p1 : Nat) :
    (pruneDecision cfg nIc pIc idx p1).1 = true ↔
      (nIc < (cfg.minSuffixCount1 : Int) ∨
       (p1 < idx ∧
         (pIc < (cfg.minSuffixCount2 : Int) ∨
          (cfg.minSuffixCount2 = 1 ∧ pIc = 1 ∧ 1 < idx)))) := by
  unfold pruneDecision
  split_ifs with h1 h2 h3 <;> simp_all

/-- The arc-drop walk of `freeze_tail` never changes the frontier length. -/
theorem clearPendingLoop_length (arcs : List BuilderArc) (rem : Nat) :
    ∀ i f f2, clearPendingLoop arcs rem i f = .ok f2 →
      f2.length = f.length := by
  induction rem with
  | zero =>
      intro i f f2 h
      simp only [clearPendingLoop] at h
      injection h with h
      exact congrArg List.length h.symm
  | succ r ih =>
      intro i f f2 h
      simp only [clearPendingLoop] at h
      split at h
      · exact ih _ _ _ h
      · exact absurd h (by simp)
      · exact (ih _ _ _ h).trans (setSlot_length f _ _)

/-- A successful `delete_last` requires a live last arc and only decrements
the live count. -/
theorem delete_last_ok (n n2 : UnCompiledNode) (lbl : Int)
    (h : n.delete_last lbl = .ok n2) :
    1 ≤ n.numArcs ∧ n2 = { n with numArcs := n.numArcs - 1 } := by
  unfold UnCompiledNode.delete_last at h
  split at h
  · exact absurd h (by simp)
  · split at h
    · exact absurd h (by simp)
    · split at h
      · refine ⟨by omega, ?_⟩
        injection h with h
        exact h.symm
      · exact absurd h (by simp)

set_option maxHeartbeats 1000000 in
/-- C3 (amended range): one `freeze_tail` iteration at depth `idx ≥ 1` (the
loop runs from `previous_key.length` down to `max 1 boundary`, so depth `0`
is never processed) prunes the node — deletes its arc from the parent,
clears it, and freezes nothing into the store — exactly when
`node.input_count < min_suffix_count1`, or `idx` is strictly below the
topmost orphaned level (`boundary < idx`) and either
`parent.input_count < min_suffix_count2` or the single-occurrence rule
(`min_suffix_count2 = 1` and `parent.input_count = 1` and `idx > 1`)
holds. -/
theorem freeze_prune_rule (cfg : Config) (s s2 : BuilderState) (idx p1 : Nat)
    (hidx : 1 ≤ idx) (hlt : idx < s.frontier.length)
    (hs : freezeStep cfg s idx p1 = .ok s2) :
    ((pruneDecision cfg (getSlot s.frontier idx).inputCount
        (getSlot s.frontier (idx - 1)).inputCount idx p1).1 = true ↔
      ((getSlot s.frontier idx).inputCount < (cfg.minSuffixCount1 : Int) ∨
        (p1 < idx ∧
          ((getSlot s.frontier (idx - 1)).inputCount <
              (cfg.minSuffixCount2 : Int) ∨
            (cfg.minSuffixCount2 = 1 ∧
              (getSlot s.frontier (idx - 1)).inputCount = 1 ∧ 1 < idx))))) ∧
    ((pruneDecision cfg (getSlot s.frontier idx).inputCount
        (getSlot s.frontier (idx - 1)).inputCount idx p1).1 = true →
      s2.store = s.store ∧ s2.counts = s.counts ∧
      (getSlot s2.frontier (idx - 1)).numArcs + 1 =
        (getSlot s.frontier (idx - 1)).numArcs ∧
      (getSlot s2.frontier idx).numArcs = 0) := by
  refine ⟨pruneDecision_fst_iff cfg _ _ idx p1, fun hpd => ?_⟩
  simp only [freezeStep, withFrontier] at hs
  simp only [hpd, eq_self_iff_true, if_true] at hs
  split at hs
  · exact absurd hs (by simp)
  · rename_i node1 s1 heq
    split at hs
    · exact absurd hs (by simp)
    · rename_i parent2 hdel
      injection hs with hs
      obtain ⟨hn, hp2⟩ := delete_last_ok _ _ _ hdel
      have hkey : s1.frontier.length = s.frontier.length ∧
          s1.store = s.store ∧ s1.counts = s.counts := by
        split at heq
        · split at heq
          · exact absurd heq (by simp)
          · rename_i f hclr
            injection heq with h12
            injection h12 with h1 h2
            rw [← h2]
            refine ⟨?_, rfl, rfl⟩
            have hl := clearPendingLoop_length _ _ _ _ _ hclr
            simpa [setSlot_length] using hl
        · injection heq with h12
          injection h12 with h1 h2
          rw [← h2]
          exact ⟨by simp [setSlot_length], rfl, rfl⟩
      obtain ⟨hlen, hst, hcn⟩ := hkey
      rw [← hs]
      refine ⟨hst, hcn, ?_, ?_⟩
      · rw [hp2]
        have hb : idx - 1 < (setSlot s1.frontier idx node1.clear).length := by
          rw [setSlot_length, hlen]; omega
        rw [getSlot_setSlot_self _ _ _ hb]
        show (getSlot s.frontier (idx - 1)).numArcs - 1 + 1 =
          (getSlot s.frontier (idx - 1)).numArcs
        omega
      · rw [getSlot_setSlot_other _ _ _ _ (by omega)]
        have hb : idx < s1.frontier.length := by rw [hlen]; exact hlt
        rw [getSlot_setSlot_self _ _ _ hb]
        rfl

set_option maxRecDepth 20000 in
/-- Witness for C3: the single `freeze_tail` iteration of a concrete
one-key build under absolute pruning (`min_suffix_count1 = 5`) prunes the
depth-1 node: nothing is frozen, the root loses its arc and the depth-1
slot is emptied. -/
theorem freeze_prune_rule_witness :
    c3frozen.store = c3state.store ∧ c3frozen.counts = c3state.counts ∧
    (getSlot c3frozen.frontier 0).numArcs + 1 =
      (getSlot c3state.frontier 0).numArcs ∧
    (getSlot c3frozen.frontier 1).numArcs = 0 :=
  (freeze_prune_rule cfg5 c3state c3frozen 1 0 (by decide)
    (by simp [c3state]) rfl).2 (by decide)

set_option maxRecDepth 20000 in
/-- Counterexample to C3 as stated: at boundary `0` the claimed iteration
range "previous_key.length down to boundary" would include depth `0`, whose
root node here has `input_count = 1 < min_suffix_count1 = 5` and so would
have to be pruned; but `freeze_tail` stops at depth `max(1, boundary) = 1`,
so the root is never processed and keeps its input count, while the depth-1
node is pruned. -/
theorem freeze_tail_zero_skips_root :
    add cfg5 (initState cfg5) [1] 0 = .ok c3state ∧
    freeze_tail cfg5 c3state 0 = .ok c3frozen ∧
    (getSlot c3frozen.frontier 0).inputCount = 1 ∧
    (getSlot c3frozen.frontier 0).inputCount < (cfg5.minSuffixCount1 : Int) ∧
    (getSlot c3frozen.frontier 1).inputCount = 0 :=
  ⟨rfl, rfl, rfl, by decide, rfl⟩

/-- `clear` keeps the backing arc `Vec`, so it preserves `nodeOk`. -/
theorem nodeOk_clear (n : UnCompiledNode) (h : nodeOk n) : nodeOk n.clear := h

/-- Fresh pending nodes have no arcs at all. -/
theorem nodeOk_new (d : Int) : nodeOk (UnCompiledNode.new d) := by
  intro a ha
  simp [UnCompiledNode.new] at ha

/-- An indexed read with a default is a member or the default. -/
theorem nthD_mem_or {α : Type} (l : List α) (i : Nat) (d : α) :
    nthD l i d ∈ l ∨ nthD l i d = d := by
  unfold nthD
  cases h : getNth? l i with
  | none => exact Or.inr rfl
  | some a => exact Or.inl (getNth?_mem l i a h)

/-- Members of a `takeN` prefix are members. -/
theorem mem_takeN {α : Type} (k : Nat) (l : List α) (a : α)
    (h : a ∈ takeN k l) : a ∈ l := by
  induction l generalizing k with
  | nil => cases k <;> simp [takeN] at h
  | cons b l ih =>
      cases k with
      | zero => simp [takeN] at h
      | succ k2 =>
          simp only [takeN] at h
          rcases List.mem_cons.mp h with h1 | h1
          · exact h1 ▸ List.mem_cons_self b l
          · exact List.mem_cons_of_mem b (ih k2 h1)

/-- Members of a `dropN` suffix are members. -/
theorem mem_dropN {α : Type} (k : Nat) (l : List α) (a : α)
    (h : a ∈ dropN k l) : a ∈ l := by
  induction l generalizing k with
  | nil => cases k <;> simp [dropN] at h
  | cons b l ih =>
      cases k with
      | zero => exact h
      | succ k2 =>
          simp only [dropN] at h
          exact List.mem_cons_of_mem b (ih k2 h)

/-- The output-prepending arc rewrite touches no targets. -/
theorem mem_mapPrependOut (p : Nat) (l : List BuilderArc) (a2 : BuilderArc)
    (h : a2 ∈ UnCompiledNode.mapPrependOut p l) :
    ∃ a ∈ l, a2.target = a.target := by
  induction l with
  | nil => simp [UnCompiledNode.mapPrependOut] at h
  | cons b l ih =>
      simp only [UnCompiledNode.mapPrependOut] at h
      rcases List.mem_cons.mp h with h1 | h1
      · exact ⟨b, List.mem_cons_self b l, by rw [h1]⟩
      · obtain ⟨a, ha, he⟩ := ih h1
        exact ⟨a, List.mem_cons_of_mem b ha, he⟩

/-- `prepend_output` rewrites outputs only, so it preserves `nodeOk`. -/
theorem nodeOk_prepend (n : UnCompiledNode) (p : Nat) (h : nodeOk n) :
    nodeOk (n.prepend_output p) := by
  intro a ha
  simp only [UnCompiledNode.prepend_output] at ha
  rcases List.mem_append.mp ha with h1 | h1
  · obtain ⟨b, hb, he⟩ := mem_mapPrependOut _ _ _ h1
    rw [he]
    exact h b (mem_takeN _ _ _ hb)
  · exact h a (mem_dropN _ _ _ h1)

/-- Members of the conditional arc append/overwrite of `add_arc`. -/
theorem mem_ite_append_setNth {α : Type} (l : List α) (c : Prop)
    [Decidable c] (k : Nat) (x : α) (a : α)
    (h : a ∈ if c then l ++ [x] else setNth l k x) : a = x ∨ a ∈ l := by
  split at h
  · rcases List.mem_append.mp h with h1 | h1
    · exact Or.inr h1
    · exact Or.inl (List.mem_singleton.mp h1)
  · exact mem_setNth l k x a h

/-- A successful `add_arc` keeps the input count and, when the new target is
not slot 0, preserves `nodeOk`. -/
theorem add_arc_ok (n n2 : UnCompiledNode) (label : Int) (t : NodeRef)
    (h : n.add_arc label t = .ok n2) :
    n2.inputCount = n.inputCount ∧
    (nodeOk n → t ≠ NodeRef.unCompiled (some 0) → nodeOk n2) := by
  unfold UnCompiledNode.add_arc at h
  split at h
  · exact absurd h (by simp)
  · split at h
    · exact absurd h (by simp)
    · injection h with h
      rw [← h]
      refine ⟨rfl, fun hok ht a ha => ?_⟩
      rcases mem_ite_append_setNth _ _ _ _ _ ha with h1 | h1
      · rw [h1]; exact ht
      · exact hok a h1

/-- A successful `replace_last` keeps the counts and, when the new target is
not slot 0, preserves `nodeOk`. -/
theorem replace_last_ok (n n2 : UnCompiledNode) (lbl : Int) (t : NodeRef)
    (nfo : Nat) (fin : Bool)
    (h : n.replace_last lbl t nfo fin = .ok n2) :
    n2.inputCount = n.inputCount ∧ n2.numArcs = n.numArcs ∧
    (nodeOk n → t ≠ NodeRef.unCompiled (some 0) → nodeOk n2) := by
  unfold UnCompiledNode.replace_last at h
  split at h
  · exact absurd h (by simp)
  · split at h
    · exact absurd h (by simp)
    · split at h
      · injection h with h
        rw [← h]
        refine ⟨rfl, rfl, fun hok ht a2 ha => ?_⟩
        rcases mem_setNth _ _ _ _ ha with h1 | h1
        · rw [h1]; exact ht
        · exact hok a2 h1
      · exact absurd h (by simp)

/-- A successful `set_last_output` keeps the input count and preserves
`nodeOk`. -/
theorem set_last_output_ok (n n2 : UnCompiledNode) (lbl : Int) (o : Nat)
    (h : n.set_last_output lbl o = .ok n2) :
    n2.inputCount = n.inputCount ∧ (nodeOk n → nodeOk n2) := by
  unfold UnCompiledNode.set_last_output at h
  split at h
  · exact absurd h (by simp)
  · split at h
    · exact absurd h (by simp)
    · rename_i b hb
      split at h
      · injection h with h
        rw [← h]
        refine ⟨rfl, fun hok a2 ha => ?_⟩
        rcases mem_setNth _ _ _ _ ha with h1 | h1
        · rw [h1]
          exact hok b (getNth?_mem _ _ _ hb)
        · exact hok a2 h1
      · exact absurd h (by simp)

/-- The arc-drop walk of `freeze_tail` clears only strictly positive slots
(its pending targets are never slot 0 on a `nodeOk` arc list), so it keeps
slot 0 and preserves `nodeOk` across the frontier. -/
theorem clearPendingLoop_preserves (arcs : List BuilderArc)
    (hsafe : ∀ a ∈ arcs, a.target ≠ NodeRef.unCompiled (some 0)) (rem : Nat) :
    ∀ i f f2, clearPendingLoop arcs rem i f = .ok f2 →
      getSlot f2 0 = getSlot f 0 ∧
      ((∀ n ∈ f, nodeOk n) → ∀ n ∈ f2, nodeOk n) := by
  induction rem with
  | zero =>
      intro i f f2 h
      simp only [clearPendingLoop] at h
      injection h with h
      subst h
      exact ⟨rfl, fun hf => hf⟩
  | succ r ih =>
      intro i f f2 h
      simp only [clearPendingLoop] at h
      split at h
      · exact ih _ _ _ h
      · exact absurd h (by simp)
      · rename_i t ht
        have ht0 : t ≠ 0 := by
          rcases nthD_mem_or arcs i default with hm | hd
          · intro he
            exact hsafe _ hm (by rw [ht, he])
          · rw [hd] at ht
            injection ht with ht2
            exact Option.noConfusion ht2
        obtain ⟨h0, hok⟩ := ih _ _ _ h
        refine ⟨?_, fun hf => ?_⟩
        · rw [h0]
          exact getSlot_setSlot_other _ _ _ _ (Ne.symm ht0)
        · exact hok (nodeOk_setSlot _ _ _ hf
            (nodeOk_clear _ (nodeOk_getSlot _ hf t)))

/-- `compile_node` never touches the frontier or the previous key, and
returns the cleared input node. -/
theorem compile_node_frontier (cfg : Config) (s : BuilderState)
    (nodeIn : UnCompiledNode) (tl : Nat)
    (r : Int × UnCompiledNode × BuilderState)
    (h : compile_node cfg s nodeIn tl = .ok r) :
    r.2.2.frontier = s.frontier ∧ r.2.2.lastInput = s.lastInput ∧
    r.2.1 = nodeIn.clear := by
  simp only [compile_node] at h
  split at h
  · exact absurd h (by simp)
  · split at h
    · exact absurd h (by simp)
    · injection h with h
      rw [← h]
      exact ⟨rfl, rfl, rfl⟩

/-- The target-compiling arc loop of `compile_all_targets` rewrites arcs to
compiled targets and clears only strictly positive frontier slots, so it
preserves length, slot 0, `nodeOk` across the frontier, arc safety of the
node, and the previous key. -/
theorem catLoop_preserves (cfg : Config) (tl : Nat) (rem : Nat) :
    ∀ i node s node2 s2,
      catLoop cfg tl rem i node s = .ok (node2, s2) →
      nodeOk node →
      (∀ n ∈ s.frontier, nodeOk n) →
      s2.frontier.length = s.frontier.length ∧
      getSlot s2.frontier 0 = getSlot s.frontier 0 ∧
      (∀ n ∈ s2.frontier, nodeOk n) ∧
      nodeOk node2 ∧
      s2.lastInput = s.lastInput := by
  induction rem with
  | zero =>
      intro i node s node2 s2 h hna hf
      simp only [catLoop] at h
      injection h with h
      injection h with h1 h2
      subst h1
      subst h2
      exact ⟨rfl, rfl, hf, hna, rfl⟩
  | succ r ih =>
      intro i node s node2 s2 h hna hf
      simp only [catLoop, withFrontier] at h
      split at h
      · exact ih _ _ _ _ _ h hna hf
      · exact absurd h (by simp)
      · rename_i tslot htarc
        have ht0 : tslot ≠ 0 := by
          rcases nthD_mem_or node.arcs i default with hm | hd
          · intro he
            exact hna _ hm (by rw [htarc, he])
          · rw [hd] at htarc
            injection htarc with ht2
            exact Option.noConfusion ht2
        split at h
        · exact absurd h (by simp)
        · rename_i addr childC sC hcomp
          obtain ⟨hcf, hcl, hcc⟩ :=
            compile_node_frontier _ _ _ _ _ hcomp
          dsimp only at hcf hcl hcc
          have hchildOk : nodeOk childC := by
            rw [hcc]
            split
            · exact nodeOk_clear _ (nodeOk_getSlot _ hf tslot)
            · exact nodeOk_clear _ (nodeOk_getSlot _ hf tslot)
          have hnode1 : ∀ b : BuilderArc,
              b.target = NodeRef.compiled addr →
              nodeOk { node with arcs := setNth node.arcs i b } := by
            intro b hb a ha
            rcases mem_setNth _ _ _ _ ha with h1 | h1
            · rw [h1, hb]
              intro he
              exact NodeRef.noConfusion he
            · exact hna a h1
          have hfr : ∀ n ∈ setSlot sC.frontier tslot childC, nodeOk n := by
            refine nodeOk_setSlot _ _ _ ?_ hchildOk
            rw [hcf]
            exact hf
          obtain ⟨l1, s01, ok1, na1, li1⟩ := ih _ _ _ _ _ h (hnode1 _ rfl) hfr
          dsimp only at l1 s01 li1
          refine ⟨?_, ?_, ok1, na1, ?_⟩
          · rw [l1, setSlot_length, hcf]
          · rw [s01, getSlot_setSlot_other _ _ _ _ (Ne.symm ht0), hcf]
          · rw [li1, hcl]

/-- The slot-0 input count after the final write-back of a `freeze_tail`
iteration (node written at `idx`, parent at `idx - 1`): at `idx = 1` the
parent write lands on slot 0 with the parent's unchanged input count;
deeper, slot 0 is untouched. -/
theorem slot0_writeback (F f : List UnCompiledNode) (idx : Nat)
    (X P : UnCompiledNode) (hidx : 1 ≤ idx) (hlen : 0 < F.length)
    (h0 : 1 < idx → getSlot F 0 = getSlot f 0)
    (hP : P.inputCount = (getSlot f (idx - 1)).inputCount) :
    (getSlot (setSlot (setSlot F idx X) (idx - 1) P) 0).inputCount =
      (getSlot f 0).inputCount := by
  by_cases hc : idx = 1
  · subst hc
    have hb : 1 - 1 < (setSlot F 1 X).length := by
      rw [setSlot_length]; omega
    rw [getSlot_setSlot_self _ _ _ hb, hP]
  · rw [getSlot_setSlot_other _ _ _ _ (by omega),
       getSlot_setSlot_other _ _ _ _ (by omega), h0 (by omega)]

/-- One `freeze_tail` iteration at a real depth (`1 ≤ idx < frontier
length`) preserves the frontier length, the `nodeOk` invariant, the root
slot's input count, and the previous key. -/
theorem freezeStep_preserves (cfg : Config) (s s2 : BuilderState)
    (idx p1 : Nat) (hidx : 1 ≤ idx) (hlt : idx < s.frontier.length)
    (hf : ∀ n ∈ s.frontier, nodeOk n)
    (h : freezeStep cfg s idx p1 = .ok s2) :
    s2.frontier.length = s.frontier.length ∧
    (∀ n ∈ s2.frontier, nodeOk n) ∧
    (getSlot s2.frontier 0).inputCount = (getSlot s.frontier 0).inputCount ∧
    s2.lastInput = s.lastInput := by
  have hnodeOk : nodeOk (getSlot s.frontier idx) := nodeOk_getSlot _ hf idx
  have hparOk : nodeOk (getSlot s.frontier (idx - 1)) :=
    nodeOk_getSlot _ hf (idx - 1)
  simp only [freezeStep, withFrontier] at h
  split at h
  · exact absurd h (by simp)
  · rename_i node1 s1 heq
    have hf0 : ∀ n ∈ setSlot (setSlot s.frontier idx (UnCompiledNode.new 0))
        (idx - 1) (UnCompiledNode.new 0), nodeOk n :=
      nodeOk_setSlot _ _ _ (nodeOk_setSlot _ _ _ hf (nodeOk_new 0))
        (nodeOk_new 0)
    have hs0 : 1 < idx →
        getSlot (setSlot (setSlot s.frontier idx (UnCompiledNode.new 0))
          (idx - 1) (UnCompiledNode.new 0)) 0 = getSlot s.frontier 0 := by
      intro hgt
      rw [getSlot_setSlot_other _ _ _ _ (by omega),
         getSlot_setSlot_other _ _ _ _ (by omega)]
    have hfacts : s1.frontier.length = s.frontier.length ∧
        (∀ n ∈ s1.frontier, nodeOk n) ∧
        (1 < idx → getSlot s1.frontier 0 = getSlot s.frontier 0) ∧
        s1.lastInput = s.lastInput ∧ nodeOk node1 := by
      split at heq
      · split at heq
        · exact absurd heq (by simp)
        · rename_i fc hclr
          injection heq with h12
          injection h12 with h1 h2
          rw [← h1, ← h2]
          obtain ⟨c0, cok⟩ :=
            clearPendingLoop_preserves _ hnodeOk _ _ _ _ hclr
          refine ⟨?_, cok hf0, fun hgt => c0.trans (hs0 hgt), rfl, hnodeOk⟩
          have hcl2 := clearPendingLoop_length _ _ _ _ _ hclr
          simpa [setSlot_length] using hcl2
      · injection heq with h12
        injection h12 with h1 h2
        rw [← h1, ← h2]
        exact ⟨by simp [setSlot_length], hf0, hs0, rfl, hnodeOk⟩
    obtain ⟨F1, F2, F5, F3, F4⟩ := hfacts
    split at h
    · split at h
      · exact absurd h (by simp)
      · rename_i parent2 hdel
        obtain ⟨hn1, hp2⟩ := delete_last_ok _ _ _ hdel
        injection h with h
        rw [← h]
        dsimp only
        refine ⟨?_, ?_, ?_, F3⟩
        · rw [setSlot_length, setSlot_length, F1]
        · exact nodeOk_setSlot _ _ _
            (nodeOk_setSlot _ _ _ F2 (nodeOk_clear _ F4))
            (by rw [hp2]; exact hparOk)
        · exact slot0_writeback s1.frontier s.frontier idx node1.clear
            parent2 hidx (by rw [F1]; omega) F5 (by rw [hp2])
    · split at h
      · exact absurd h (by simp)
      · rename_i node3 s3 hcat
        have hG : s3.frontier.length = s1.frontier.length ∧
            getSlot s3.frontier 0 = getSlot s1.frontier 0 ∧
            (∀ n ∈ s3.frontier, nodeOk n) ∧ nodeOk node3 ∧
            s3.lastInput = s1.lastInput := by
          split at hcat
          · simp only [compile_all_targets] at hcat
            exact catLoop_preserves _ _ _ _ _ _ _ _ hcat F4 F2
          · injection hcat with h12
            injection h12 with h1 h2
            rw [← h1, ← h2]
            exact ⟨rfl, rfl, F2, F4, rfl⟩
        obtain ⟨G1, G2, G3, G4, G5⟩ := hG
        split at h
        · split at h
          · exact absurd h (by simp)
          · rename_i n4 nodeC s4 hcn
            obtain ⟨K1, K2, K3⟩ := compile_node_frontier _ _ _ _ _ hcn
            dsimp only at K1 K2 K3
            split at h
            · exact absurd h (by simp)
            · rename_i parent3 hrep
              obtain ⟨R1, R2, R3⟩ := replace_last_ok _ _ _ _ _ _ hrep
              injection h with h
              rw [← h]
              dsimp only
              refine ⟨?_, ?_, ?_, ?_⟩
              · rw [setSlot_length, setSlot_length, K1, G1, F1]
              · refine nodeOk_setSlot _ _ _ (nodeOk_setSlot _ _ _ ?_ ?_) ?_
                · rw [K1]; exact G3
                · rw [K3]; exact nodeOk_clear _ G4
                · exact R3 hparOk (by intro he; exact NodeRef.noConfusion he)
              · refine slot0_writeback s4.frontier s.frontier idx nodeC
                  parent3 hidx ?_ ?_ ?_
                · rw [K1, G1, F1]; omega
                · intro hgt; rw [K1, G2]; exact F5 hgt
                · rw [R1]
              · rw [K2, G5, F3]
        · split at h
          · exact absurd h (by simp)
          · rename_i parent3 hrep
            obtain ⟨R1, R2, R3⟩ := replace_last_ok _ _ _ _ _ _ hrep
            injection h with h
            rw [← h]
            dsimp only
            refine ⟨?_, ?_, ?_, ?_⟩
            · rw [setSlot_length, setSlot_length, G1, F1]
            · refine nodeOk_setSlot _ _ _
                (nodeOk_setSlot _ _ _ G3 (nodeOk_new idx)) ?_
              exact R3 hparOk
                (by intro he; injection he with h5; exact Option.noConfusion h5)
            · refine slot0_writeback s3.frontier s.frontier idx
                (UnCompiledNode.new idx) parent3 hidx ?_ ?_ ?_
              · rw [G1, F1]; omega
              · intro hgt; rw [G2]; exact F5 hgt
              · rw [R1]
            · rw [G5, F3]

/-- The descending `freeze_tail` loop, run for at most `idx` steps inside
the frontier, preserves length, `nodeOk`, the root input count and the
previous key. -/
theorem freezeLoop_preserves (cfg : Config) (p1 : Nat) (steps : Nat) :
    ∀ idx s s2, steps ≤ idx → idx < s.frontier.length →
      (∀ n ∈ s.frontier, nodeOk n) →
      freezeLoop cfg p1 steps idx s = .ok s2 →
      s2.frontier.length = s.frontier.length ∧
      (∀ n ∈ s2.frontier, nodeOk n) ∧
      (getSlot s2.frontier 0).inputCount = (getSlot s.frontier 0).inputCount ∧
      s2.lastInput = s.lastInput := by
  induction steps with
  | zero =>
      intro idx s s2 _ _ hok h
      simp only [freezeLoop] at h
      injection h with h
      subst h
      exact ⟨rfl, hok, rfl, rfl⟩
  | succ st ih =>
      intro idx s s2 hsi hlt hok h
      simp only [freezeLoop] at h
      split at h
      · exact absurd h (by simp)
      · rename_i s3 hstep
        obtain ⟨l1, ok1, ic1, li1⟩ :=
          freezeStep_preserves cfg s s3 idx p1 (by omega) hlt hok hstep
        obtain ⟨l2, ok2, ic2, li2⟩ :=
          ih (idx - 1) s3 s2 (by omega) (by rw [l1]; omega) ok1 h
        exact ⟨l2.trans l1, ok2, ic2.trans ic1, li2.trans li1⟩

/-- `freeze_tail` preserves the frontier length, the `nodeOk` invariant,
the root input count and the previous key, for every boundary. -/
theorem freeze_tail_preserves (cfg : Config) (s s2 : BuilderState) (p1 : Nat)
    (hlt : s.lastInput.length < s.frontier.length)
    (hok : ∀ n ∈ s.frontier, nodeOk n)
    (h : freeze_tail cfg s p1 = .ok s2) :
    s2.frontier.length = s.frontier.length ∧
    (∀ n ∈ s2.frontier, nodeOk n) ∧
    (getSlot s2.frontier 0).inputCount = (getSlot s.frontier 0).inputCount ∧
    s2.lastInput = s.lastInput := by
  simp only [freeze_tail] at h
  split at h
  · injection h with h
    subst h
    exact ⟨rfl, hok, rfl, rfl⟩
  · rename_i hge
    exact freezeLoop_preserves cfg p1 _ _ _ _ (by omega) hlt hok h

/-- The shared-prefix walk starting strictly below the root keeps slot 0
entirely, preserves the length and the `nodeOk` invariant. -/
theorem sharedPrefixGo_deep (last input : List Int) (stop : Nat)
    (fuel : Nat) :
    ∀ pos1 f, 1 ≤ pos1 →
      (sharedPrefixGo last input stop fuel pos1 f).1.length = f.length ∧
      getSlot (sharedPrefixGo last input stop fuel pos1 f).1 0 =
        getSlot f 0 ∧
      ((∀ n ∈ f, nodeOk n) →
        ∀ n ∈ (sharedPrefixGo last input stop fuel pos1 f).1, nodeOk n) := by
  induction fuel with
  | zero =>
      intro pos1 f _
      exact ⟨rfl, rfl, fun hf => hf⟩
  | succ fu ih =>
      intro pos1 f hp
      simp only [sharedPrefixGo]
      split
      · refine ⟨setSlot_length _ _ _,
          getSlot_setSlot_other _ _ _ _ (by omega), fun hf => ?_⟩
        exact nodeOk_setSlot _ _ _ hf (nodeOk_getSlot _ hf pos1)
      · obtain ⟨a, b, c⟩ := ih (pos1 + 1) (setSlot f pos1
          { getSlot f pos1 with
            inputCount := (getSlot f pos1).inputCount + 1 }) (by omega)
        refine ⟨a.trans (setSlot_length _ _ _),
          b.trans (getSlot_setSlot_other _ _ _ _ (by omega)), fun hf => ?_⟩
        exact c (nodeOk_setSlot _ _ _ hf (nodeOk_getSlot _ hf pos1))

/-- The shared-prefix walk of `add`, started at the root with at least one
iteration of fuel, increments the root input count exactly once, and
preserves the length and the `nodeOk` invariant. -/
theorem sharedPrefixGo_root (last input : List Int) (stop fu : Nat)
    (f : List UnCompiledNode) (hlen : 0 < f.length) :
    (sharedPrefixGo last input stop (fu + 1) 0 f).1.length = f.length ∧
    (getSlot (sharedPrefixGo last input stop (fu + 1) 0 f).1 0).inputCount =
      (getSlot f 0).inputCount + 1 ∧
    ((∀ n ∈ f, nodeOk n) →
      ∀ n ∈ (sharedPrefixGo last input stop (fu + 1) 0 f).1, nodeOk n) := by
  simp only [sharedPrefixGo]
  split
  · refine ⟨setSlot_length _ _ _, ?_,
      fun hf => nodeOk_setSlot _ _ _ hf (nodeOk_getSlot _ hf 0)⟩
    rw [getSlot_setSlot_self _ _ _ hlen]
  · obtain ⟨a, b, c⟩ := sharedPrefixGo_deep last input stop fu 1
      (setSlot f 0 { getSlot f 0 with
        inputCount := (getSlot f 0).inputCount + 1 }) (by omega)
    refine ⟨a.trans (setSlot_length _ _ _), ?_,
      fun hf => c (nodeOk_setSlot _ _ _ hf (nodeOk_getSlot _ hf 0))⟩
    rw [b, getSlot_setSlot_self _ _ _ hlen]

/-- Reading inside the left part of an appended list. -/
theorem getNth?_append_left {α : Type} (l l2 : List α) (i : Nat)
    (h : i < l.length) : getNth? (l ++ l2) i = getNth? l i := by
  induction l generalizing i with
  | nil => simp at h
  | cons a l ih =>
      cases i with
      | zero => rfl
      | succ j =>
          simp only [List.length_cons, Nat.succ_lt_succ_iff] at h
          exact ih j h

/-- Slot 0 of an extended frontier. -/
theorem getSlot_append_left (f g : List UnCompiledNode) (h : 0 < f.length) :
    getSlot (f ++ g) 0 = getSlot f 0 := by
  simp [getSlot, nthD, getNth?_append_left f g 0 h]

/-- Length of a run of fresh frontier slots. -/
theorem freshSlots_length (c : Nat) : ∀ d, (freshSlots c d).length = c := by
  induction c with
  | zero => intro d; rfl
  | succ c2 ih => intro d; simp [freshSlots, ih]

/-- Fresh frontier slots satisfy `nodeOk`. -/
theorem freshSlots_nodeOk (c : Nat) : ∀ d, ∀ n ∈ freshSlots c d, nodeOk n := by
  induction c with
  | zero => intro d n hn; simp [freshSlots] at hn
  | succ c2 ih =>
      intro d n hn
      simp only [freshSlots] at hn
      rcases List.mem_cons.mp hn with h1 | h1
      · exact h1 ▸ nodeOk_new d
      · exact ih (d + 1) n h1

/-- The frontier-extension loop of `add`, run from a positive depth,
preserves length, the previous key, the `nodeOk` invariant and the root
input count. -/
theorem extendLoop_preserves (input : List Int) (rem : Nat) :
    ∀ i s s2, extendLoop input rem i s = .ok s2 → 1 ≤ i →
      0 < s.frontier.length →
      s2.frontier.length = s.frontier.length ∧ s2.lastInput = s.lastInput ∧
      ((∀ n ∈ s.frontier, nodeOk n) → ∀ n ∈ s2.frontier, nodeOk n) ∧
      (getSlot s2.frontier 0).inputCount =
        (getSlot s.frontier 0).inputCount := by
  induction rem with
  | zero =>
      intro i s s2 h _ _
      simp only [extendLoop] at h
      injection h with h
      subst h
      exact ⟨rfl, rfl, fun hf => hf, rfl⟩
  | succ r ih =>
      intro i s s2 h hi hlen
      simp only [extendLoop, withFrontier] at h
      split at h
      · exact absurd h (by simp)
      · rename_i pnode hadd
        obtain ⟨hic, hok⟩ := add_arc_ok _ _ _ _ hadd
        obtain ⟨a, b, c, d⟩ := ih (i + 1) _ _ h (by omega)
          (by dsimp only; rw [setSlot_length, setSlot_length]; omega)
        dsimp only at a b c d
        refine ⟨?_, b, fun hf => c ?_, ?_⟩
        · rw [a, setSlot_length, setSlot_length]
        · refine nodeOk_setSlot _ _ _ (nodeOk_setSlot _ _ _ hf ?_) ?_
          · refine hok (nodeOk_getSlot _ hf (i - 1)) ?_
            intro he
            injection he with h5
            injection h5 with h6
            omega
          · refine nodeOk_getSlot _ ?_ i
            refine nodeOk_setSlot _ _ _ hf ?_
            refine hok (nodeOk_getSlot _ hf (i - 1)) ?_
            intro he
            injection he with h5
            injection h5 with h6
            omega
        · rw [d]
          rw [getSlot_setSlot_other _ _ _ _ (by omega)]
          by_cases hc : i = 1
          · subst hc
            have hb : 1 - 1 < s.frontier.length := by omega
            rw [getSlot_setSlot_self _ _ _ hb, hic]
          · rw [getSlot_setSlot_other _ _ _ _ (by omega)]

/-- The output-pushing loop of `add`, run from a positive depth, preserves
length, the previous key, the `nodeOk` invariant and the root input
count. -/
theorem pushLoop_preserves (input : List Int) (rem : Nat) :
    ∀ i s output s2 out2,
      pushLoop input rem i s output = .ok (s2, out2) → 1 ≤ i →
      0 < s.frontier.length →
      s2.frontier.length = s.frontier.length ∧ s2.lastInput = s.lastInput ∧
      ((∀ n ∈ s.frontier, nodeOk n) → ∀ n ∈ s2.frontier, nodeOk n) ∧
      (getSlot s2.frontier 0).inputCount =
        (getSlot s.frontier 0).inputCount := by
  induction rem with
  | zero =>
      intro i s output s2 out2 h _ _
      simp only [pushLoop] at h
      injection h with h
      injection h with h1 h2
      subst h1
      exact ⟨rfl, rfl, fun hf => hf, rfl⟩
  | succ r ih =>
      intro i s output s2 out2 h hi hlen
      simp only [pushLoop, withFrontier] at h
      split at h
      · exact absurd h (by simp)
      · rename_i lastOutput hglo
        split at h
        · split at h
          · exact absurd h (by simp)
          · rename_i p hslo
            obtain ⟨hpic, hpok⟩ := set_last_output_ok _ _ _ _ hslo
            obtain ⟨a, b, c, d⟩ := ih (i + 1) _ _ _ _ h (by omega)
              (by dsimp only; rw [setSlot_length, setSlot_length]; omega)
            dsimp only at a b c d
            refine ⟨?_, b, fun hf => c ?_, ?_⟩
            · rw [a, setSlot_length, setSlot_length]
            · refine nodeOk_setSlot _ _ _ ?_ ?_
              · refine nodeOk_setSlot _ _ _ hf ?_
                exact nodeOk_prepend _ _ (nodeOk_getSlot _ hf i)
              · refine hpok ?_
                refine nodeOk_getSlot _ ?_ (i - 1)
                refine nodeOk_setSlot _ _ _ hf ?_
                exact nodeOk_prepend _ _ (nodeOk_getSlot _ hf i)
            · rw [d]
              by_cases hc : i = 1
              · subst hc
                have hb : 1 - 1 < (setSlot s.frontier 1
                    ((getSlot s.frontier 1).prepend_output
                      (oSub lastOutput (oCommon output lastOutput)))).length := by
                  rw [setSlot_length]; omega
                rw [getSlot_setSlot_self _ _ _ hb, hpic,
                   getSlot_setSlot_other _ _ _ _ (by omega)]
              · rw [getSlot_setSlot_other _ _ _ _ (by omega),
                   getSlot_setSlot_other _ _ _ _ (by omega)]
        · obtain ⟨a, b, c, d⟩ := ih (i + 1) _ _ _ _ h (by omega) hlen
          exact ⟨a, b, c, d⟩

/-- A single slot write with an input-count-preserving node keeps the root
input count. -/
theorem slot0_icpres_write (f : List UnCompiledNode) (k : Nat)
    (P : UnCompiledNode) (hlen : 0 < f.length)
    (hP : P.inputCount = (getSlot f k).inputCount) :
    (getSlot (setSlot f k P) 0).inputCount = (getSlot f 0).inputCount := by
  by_cases hc : k = 0
  · subst hc
    rw [getSlot_setSlot_self _ _ _ hlen, hP]
  · rw [getSlot_setSlot_other _ _ _ _ (by omega)]

/-- The tail of `add` (leaf marking, output pushing, output install) keeps
the frontier length, the `nodeOk` invariant and the root input count, and
records the key as the new previous key. -/
theorem addTail_preserves (input : List Int) (p1 : Nat) (sM s2 : BuilderState)
    (output : Nat) (h0 : input.length ≠ 0)
    (hlenM : input.length < sM.frontier.length)
    (hokM : ∀ n ∈ sM.frontier, nodeOk n)
    (h : addTail sM input p1 output = .ok s2) :
    s2.frontier.length = sM.frontier.length ∧
    s2.lastInput = input ∧
    (∀ n ∈ s2.frontier, nodeOk n) ∧
    (getSlot s2.frontier 0).inputCount =
      (getSlot sM.frontier 0).inputCount := by
  have hl0 : 0 < sM.frontier.length := by omega
  simp only [addTail, withFrontier] at h
  generalize hN : (if sM.lastInput.length ≠ input.length ∨ p1 ≠ input.length + 1 then { sM with frontier := setSlot sM.frontier input.length { getSlot sM.frontier input.length with isFinal := true, output := oEmpty } } else sM) = sN at h
  have hNf : sN.frontier.length = sM.frontier.length ∧
      sN.lastInput = sM.lastInput ∧ (∀ n ∈ sN.frontier, nodeOk n) ∧
      (getSlot sN.frontier 0).inputCount =
        (getSlot sM.frontier 0).inputCount := by
    split at hN <;> rw [← hN]
    · dsimp only
      refine ⟨setSlot_length _ _ _, rfl,
        nodeOk_setSlot _ _ _ hokM (nodeOk_getSlot _ hokM input.length), ?_⟩
      rw [getSlot_setSlot_other _ _ _ _ (by omega)]
    · exact ⟨rfl, rfl, hokM, rfl⟩
  obtain ⟨N1, N2, N3, N4⟩ := hNf
  split at h
  · exact absurd h (by simp)
  · rename_i sP out2 hpush
    obtain ⟨P1, P2, P3, P4⟩ := pushLoop_preserves input _ _ _ _ _ _ hpush
      (le_refl 1) (by omega)
    have hlP : 0 < sP.frontier.length := by omega
    split at h
    · injection h with h
      rw [← h]
      dsimp only
      refine ⟨?_, rfl, ?_, ?_⟩
      · rw [setSlot_length, P1, N1]
      · exact nodeOk_setSlot _ _ _ (P3 N3)
          (nodeOk_getSlot _ (P3 N3) input.length)
      · refine (slot0_icpres_write _ _ _ hlP (by rfl)).trans ?_
        exact P4.trans N4
    · split at h
      · exact absurd h (by simp)
      · rename_i p hslo
        obtain ⟨hpic, hpok⟩ := set_last_output_ok _ _ _ _ hslo
        injection h with h
        rw [← h]
        dsimp only
        refine ⟨?_, rfl, ?_, ?_⟩
        · rw [setSlot_length, P1, N1]
        · exact nodeOk_setSlot _ _ _ (P3 N3)
            (hpok (nodeOk_getSlot _ (P3 N3) (p1 - 1)))
        · refine (slot0_icpres_write _ _ _ hlP hpic).trans ?_
          exact P4.trans N4

/-- The body of `add` after the frontier growth: on success it keeps the
frontier length and the `nodeOk` invariant, its result key fits the
frontier, and the root input count grows by exactly one. -/
theorem addCore_preserves (cfg : Config) (sE s2 : BuilderState)
    (input : List Int) (output : Nat)
    (hlen : input.length < sE.frontier.length)
    (hlast : sE.lastInput.length < sE.frontier.length)
    (hok : ∀ n ∈ sE.frontier, nodeOk n)
    (h : addCore cfg sE input output = .ok s2) :
    s2.lastInput.length < s2.frontier.length ∧
    (∀ n ∈ s2.frontier, nodeOk n) ∧
    (getSlot s2.frontier 0).inputCount =
      (getSlot sE.frontier 0).inputCount + 1 := by
  have hlen0 : 0 < sE.frontier.length := by omega
  simp only [addCore, withFrontier] at h
  split at h
  · rename_i h0
    injection h with h
    rw [← h]
    dsimp only
    refine ⟨?_, ?_, ?_⟩
    · rw [setSlot_length]; exact hlast
    · exact nodeOk_setSlot _ _ _ hok (nodeOk_getSlot _ hok 0)
    · rw [getSlot_setSlot_self _ _ _ hlen0]
  · rename_i h0
    obtain ⟨a, b, c⟩ := sharedPrefixGo_root sE.lastInput input
      (min sE.lastInput.length input.length)
      (min sE.lastInput.length input.length) sE.frontier hlen0
    split at h
    · exact absurd h (by simp)
    · rename_i sF hft
      obtain ⟨T1, T2, T3, T4⟩ := freeze_tail_preserves cfg _ sF _
        (by dsimp only; omega) (c hok) hft
      dsimp only at T1 T3 T4
      split at h
      · exact absurd h (by simp)
      · rename_i sX hext
        obtain ⟨E1, E2, E3, E4⟩ := extendLoop_preserves input _ _ _ _ hext
          (by omega) (by omega)
        obtain ⟨A1, A2, A3, A4⟩ := addTail_preserves input _ sX s2
          output h0 (by omega) (E3 T2) h
        refine ⟨?_, A3, ?_⟩
        · rw [A2, A1, E1, T1, a]; omega
        · rw [A4, E4, T3, b]

/-- `add` on a well-formed builder state keeps it well-formed and increments
`term_count` by exactly one. -/
theorem add_preserves (cfg : Config) (s s2 : BuilderState) (input : List Int)
    (output : Nat) (hwf : wfState s) (h : add cfg s input output = .ok s2) :
    wfState s2 ∧ term_count s2 = term_count s + 1 := by
  obtain ⟨hlen, hok⟩ := hwf
  have hlen0 : 0 < s.frontier.length := by omega
  simp only [add, withFrontier] at h
  split at h
  · exact absurd h (by simp)
  · by_cases hext : s.frontier.length < input.length + 1
    · rw [if_pos hext] at h
      obtain ⟨a, b, c⟩ := addCore_preserves cfg _ s2 input output
        (by dsimp only
            rw [List.length_append, freshSlots_length]
            omega)
        (by dsimp only
            rw [List.length_append, freshSlots_length]
            omega)
        (by intro n hn
            rcases List.mem_append.mp hn with h1 | h1
            · exact hok n h1
            · exact freshSlots_nodeOk _ _ n h1) h
      dsimp only at c
      refine ⟨⟨a, b⟩, ?_⟩
      unfold term_count
      rw [c, getSlot_append_left _ _ hlen0]
    · rw [if_neg hext] at h
      obtain ⟨a, b, c⟩ := addCore_preserves cfg s s2 input output
        (by omega) hlen hok h
      exact ⟨⟨a, b⟩, c⟩

/-- A run of successful `add` calls on a well-formed builder state keeps it
well-formed and adds the number of calls to `term_count`. -/
theorem add_all_preserves (cfg : Config) (ins : List (List Int × Nat)) :
    ∀ s s2, wfState s → add_all cfg s ins = .ok s2 →
      wfState s2 ∧ term_count s2 = term_count s + ins.length := by
  induction ins with
  | nil =>
      intro s s2 hwf h
      simp only [add_all] at h
      injection h with h
      subst h
      exact ⟨hwf, by simp⟩
  | cons q rest ih =>
      obtain ⟨k, o⟩ := q
      intro s s2 hwf h
      simp only [add_all] at h
      split at h
      · exact absurd h (by simp)
      · rename_i s3 hadd
        obtain ⟨hwf3, hc3⟩ := add_preserves cfg s s3 k o hwf hadd
        obtain ⟨hwf2, hc2⟩ := ih s3 s2 hwf3 h
        refine ⟨hwf2, ?_⟩
        rw [hc2, hc3]
        simp only [List.length_cons]
        push_cast
        ring

set_option maxRecDepth 20000 in
/-- C10: after any sequence of successful `add` calls from the fresh
builder (and before `finish`), `term_count` — the root frontier slot's
input count — equals exactly the number of `add` calls made: every `add`,
including the empty-key special case, increments it exactly once, and no
other operation before `finish` modifies it. -/
theorem term_count_counts_adds (cfg : Config) (ins : List (List Int × Nat))
    (s2 : BuilderState) (h : add_all cfg (initState cfg) ins = .ok s2) :
    term_count s2 = ins.length := by
  have hwf : wfState (initState cfg) := by
    constructor
    · simp [initState, freshSlots_length]
    · intro n hn
      exact freshSlots_nodeOk 10 0 n hn
  obtain ⟨_, hc⟩ := add_all_preserves cfg ins _ s2 hwf h
  rw [hc]
  have h0 : term_count (initState cfg) = 0 := rfl
  rw [h0]
  ring

set_option maxRecDepth 20000 in
set_option maxHeartbeats 1000000 in
/-- Witness for C10: one concrete `add` of the key `[1]` with output `5`
under the `FstBuilder::new` configuration yields `term_count = 1`. -/
theorem term_count_counts_adds_witness :
    term_count ((add_all defaultConfig (initState defaultConfig)
        [([1], 5)]).toOption.getD (initState defaultConfig)) =
      ([([1], 5)] : List (List Int × Nat)).length :=
  term_count_counts_adds defaultConfig [([1], 5)] _ rfl

set_option maxRecDepth 20000 in
set_option maxHeartbeats 1000000 in
/-- C1: with pruning disabled (the `FstBuilder::new` configuration has
`min_suffix_count1 = min_suffix_count2 = 0`), the strictly increasing,
duplicate-free key sequence `[1,2] < [1,3] < [2,4] < [3]` (all outputs `0`)
does not produce an automaton accepting the inserted keys at all: the build
dies with the `assert_eq!` of `NodeHash::add`, because
`node_hash_uncompiled` hashes the stale arc that the reused frontier slot at
depth 1 still carries beyond `num_arcs`, while the hash recomputed from the
frozen node covers only the live arc.  (All outputs are empty, so the
modelled `DefaultHasher` is never consulted during this run.) -/
theorem build_crashes_on_sorted_keys :
    (lexLt [1, 2] [1, 3] ∧ lexLt [1, 3] [2, 4] ∧ lexLt [2, 4] [3]) ∧
    buildAndFinish defaultConfig
        [([1, 2], 0), ([1, 3], 0), ([2, 4], 0), ([3], 0)] =
      .error Fatal.assertHash :=
  ⟨⟨rfl, rfl, rfl⟩, rfl⟩

set_option maxRecDepth 20000 in
set_option maxHeartbeats 1000000 in
/-- C8: the structural hash of a pending node is not computed only over its
`num_arcs` live arcs: on `staleNodeExample` (the node frozen during the
failing build below) `node_hash_uncompiled` disagrees with the
spec-described hash over the live arc list, and consequently the
insertion-time `assert_eq!` of `NodeHash::add` fails on the sorted input
`[1,2], [1,3], [2,4], [3]` under the default configuration. -/
theorem node_hash_includes_stale_arcs :
    node_hash_uncompiled defaultHasher staleNodeExample ≠
      specNodeHash defaultHasher staleNodeExample ∧
    add_all defaultConfig (initState defaultConfig)
        [([1, 2], 0), ([1, 3], 0), ([2, 4], 0), ([3], 0)] =
      .error Fatal.assertHash :=
  ⟨by decide, rfl⟩

set_option maxRecDepth 20000 in
set_option maxHeartbeats 1000000 in
/-- C2: two structurally identical, dedup-eligible node shapes do not always
compile to the same single address.  Building the keys `[1,2,3]` and
`[4,2,3]` (outputs `0`) under the default sharing configuration freezes the
shape `[label 3 → final end-node]` twice — at store addresses `1` and `3`
(an address is its store index plus one) — because `nodes_equal` answers
`false` whenever the compiled arc's output reads back as absent (the empty
output), even though the candidate's output is empty too; so the probe walks
past the structurally identical entry and freezes a duplicate. -/
theorem dedup_freezes_identical_shape_twice :
    buildAndFinish defaultConfig [([1, 2, 3], 0), ([4, 2, 3], 0)] =
      .ok (some dupFst) ∧
    getNth? dupFst.store 0 = getNth? dupFst.store 2 ∧
    getNth? dupFst.store 0 =
      some [{ label := 3, target := -1, isFinal := true, output := 0,
              nextFinalOutput := 0 }] :=
  ⟨rfl, rfl, rfl⟩

set_option maxRecDepth 20000 in
set_option maxHeartbeats 1000000 in
/-- C6: adding the same key twice in a row is not merged via the output
algebra: the very first statement of `FstBuilder::add` asserts that the new
key is strictly greater than the previous one, so the second `add([1], 7)`
after `add([1], 5)` dies with that assertion (a fatal panic), and the
duplicate-key merge branch of `add` is unreachable — contradicting the
method's own documentation comment, which explicitly permits adding the
same input twice in a row relying on `OutputFactory::merge`. -/
theorem duplicate_key_add_is_fatal :
    add_all defaultConfig (initState defaultConfig) [([1], 5), ([1], 7)] =
      .error Fatal.assertOrder :=
  rfl

/-- C4: when a non-empty key has already been added and the new key is not
strictly greater in lexicographic order, `add` dies immediately on its
leading `assert!` — a fatal panic, not a recoverable error value — without
touching any state (the assertion is the first statement of the method, so
nothing is partially applied). -/
theorem add_out_of_order_is_fatal (cfg : Config) (s : BuilderState)
    (input : List Int) (output : Nat)
    (h1 : s.lastInput.length ≠ 0) (h2 : lexLt s.lastInput input = false) :
    add cfg s input output = .error Fatal.assertOrder := by
  have hcond : ¬ (s.lastInput.length = 0 ∨ lexLt s.lastInput input = true) := by
    rintro (hA | hB)
    · exact h1 hA
    · rw [h2] at hB; exact Bool.false_ne_true hB
  unfold add
  rw [if_pos hcond]

/-- Witness for C4: after adding `[1]`, adding `[1]` again (equal, hence not
strictly greater) is the fatal order assertion. -/
theorem add_out_of_order_is_fatal_witness :
    add defaultConfig { initState defaultConfig with lastInput := [1] }
      [1] 0 = .error Fatal.assertOrder :=
  add_out_of_order_is_fatal defaultConfig
    { initState defaultConfig with lastInput := [1] } [1] 0
    (by decide) (by decide)

/-- C5: adding the empty key (only legal while no previous key is recorded)
marks the root frontier slot final, increments its input count, merges the
output into the designated empty output, and changes nothing else — in
particular the store, the dedup table, the other frontier slots and the
previous-key buffer are untouched, and freeze-tail is not invoked. -/
theorem add_empty_key_spec (cfg : Config) (s : BuilderState) (output : Nat)
    (hlast : s.lastInput = []) (hlen : 1 ≤ s.frontier.length) :
    add cfg s [] output =
      .ok { s with
        frontier := setSlot s.frontier 0
          { getSlot s.frontier 0 with
              inputCount := (getSlot s.frontier 0).inputCount + 1,
              isFinal := true },
        emptyOutput := set_empty_output s.emptyOutput output } := by
  have c1 : ¬ ¬ (s.lastInput.length = 0 ∨ lexLt s.lastInput [] = true) := by
    simp [hlast]
  have c2 : ¬ (s.frontier.length < List.length ([] : List Int) + 1) := by
    simp only [List.length_nil]
    omega
  unfold add
  rw [if_neg c1, if_neg c2]
  rfl

/-- Witness for C5: the first `add` of the empty key with output `7` on a
fresh builder. -/
theorem add_empty_key_witness :
    add defaultConfig (initState defaultConfig) [] 7 =
      .ok { initState defaultConfig with
        frontier := setSlot (initState defaultConfig).frontier 0
          { getSlot (initState defaultConfig).frontier 0 with
              inputCount :=
                (getSlot (initState defaultConfig).frontier 0).inputCount + 1,
              isFinal := true },
        emptyOutput :=
          set_empty_output (initState defaultConfig).emptyOutput 7 } :=
  add_empty_key_spec defaultConfig (initState defaultConfig) 7 rfl
    (by decide)

/-- C7: `finish` returns the successful empty result `none` — not an error —
whenever, after the final freeze, the root misses a pruning threshold or has
no arcs, and either no empty-key output was recorded or a pruning threshold
is non-zero (the empty key itself gets pruned). -/
theorem finish_none_when_nothing_accepted (cfg : Config)
    (s s2 : BuilderState)
    (hf : freeze_tail cfg s 0 = .ok s2)
    (hcond : (getSlot s2.frontier 0).inputCount < (cfg.minSuffixCount1 : Int) ∨
        (getSlot s2.frontier 0).inputCount < (cfg.minSuffixCount2 : Int) ∨
        (getSlot s2.frontier 0).numArcs = 0)
    (hempty : s2.emptyOutput = none ∨
        (0 < cfg.minSuffixCount1 ∨ 0 < cfg.minSuffixCount2)) :
    finish cfg s = .ok none := by
  unfold finish
  rw [hf]
  rcases hempty with he | hm
  · simp only [if_pos hcond, if_pos he]
  · by_cases he2 : s2.emptyOutput = none
    · simp only [if_pos hcond, if_pos he2]
    · simp only [if_pos hcond, if_neg he2, if_pos hm]

/-- Witness for C7: `finish` on a fresh builder with no prior `add` returns
the successful empty result. -/
theorem finish_none_witness :
    finish defaultConfig (initState defaultConfig) = .ok none :=
  finish_none_when_nothing_accepted defaultConfig (initState defaultConfig)
    (initState defaultConfig) rfl (Or.inr (Or.inr rfl)) (Or.inl rfl)

/-- C9: building is deterministic: two runs of the builder over the same
configuration and the same input sequence produce the same result — in
particular, on success, the same node count, the same arc count and the
same compiled store.  The embedded build is a pure function of the
configuration and the inputs; the source has no other inputs
(`DefaultHasher` is fixed-key and deterministic). -/
theorem build_deterministic (cfg : Config) (ins : List (List Int × Nat))
    (r1 r2 : Except Fatal (Option CompiledFST))
    (h1 : r1 = buildAndFinish cfg ins) (h2 : r2 = buildAndFinish cfg ins) :
    r1 = r2 ∧
    ∀ f1 f2 : CompiledFST, r1 = .ok (some f1) → r2 = .ok (some f2) →
      f1.counts.nodeCount = f2.counts.nodeCount ∧
      f1.counts.arcCount = f2.counts.arcCount ∧ f1.store = f2.store := by
  subst h1; subst h2
  refine ⟨rfl, fun f1 f2 e1 e2 => ?_⟩
  rw [e1] at e2
  injection e2 with e3
  injection e3 with e4
  subst e4
  exact ⟨rfl, rfl, rfl⟩

/-- Witness for C9: two runs over the single key `[1]`. -/
theorem build_deterministic_witness :
    buildAndFinish defaultConfig [([1], 0)] =
      buildAndFinish defaultConfig [([1], 0)] ∧
    ∀ f1 f2 : CompiledFST,
      buildAndFinish defaultConfig [([1], 0)] = .ok (some f1) →
      buildAndFinish defaultConfig [([1], 0)] = .ok (some f2) →
      f1.counts.nodeCount = f2.counts.nodeCount ∧
      f1.counts.arcCount = f2.counts.arcCount ∧ f1.store = f2.store :=
  build_deterministic defaultConfig [([1], 0)] _ _ rfl rfl

end Rucene
